import Mathlib

/-!
# Verification development for `recma-static-refiner`

This file gives a shallow embedding, in Lean 4, of the core pipeline of the
`recma-static-refiner` repository (extraction → diff → overlay → patch
planning → tree patching), together with theorems settling a list of claims
about that pipeline.

Modelling conventions
---------------------
* JavaScript numbers are modelled by `JSNum`: an integer for the finite case
  (fractional literals play no role in any claim; `-0` is folded to `0` at
  construction time), plus explicit `nan`, `inf` (`Infinity`) and `ninf`
  (`-Infinity`) constructors so that the non-finite edge cases of the path
  codec are represented exactly.
* Plain-data values (`JSValue`) are inductive trees: keyed containers are
  association lists in `Object.keys` enumeration order, ordered containers are
  lists whose `none` entries model sparse holes (elisions).
* For the structural differ, which is sensitive to *reference* identity and
  must handle cyclic object graphs, a second, heap-based model is used: a
  `Store` maps numeric addresses to container data and `Object.is` on
  containers becomes address equality (see the differ section).
* Fallible code is modelled with `Option`/`Except`; unbounded JS recursion
  over possibly-cyclic graphs is modelled with an explicit fuel parameter.
-/

set_option maxHeartbeats 1000000

namespace RecmaStaticRefiner

/-! ## JavaScript numbers and logical path segments

Source: `src/utils/property-path-key.ts` (`PropertyPathSegment`),
`src/utils/type-guards.ts`.
-/

/-- Model of a JavaScript `number` as far as the path codec is concerned:
a finite integer, or one of the non-finite values `NaN`, `Infinity`,
`-Infinity`.  (`-0` is folded to `0`; fractional values do not occur in any
claim.) -/
inductive JSNum where
  | fin (i : Int)
  | nan
  | inf
  | ninf
deriving DecidableEq, Repr

/-- `PropertyPathSegment`: a logical path segment is either a string key or a
numeric index/key. -/
inductive Seg where
  | str (s : String)
  | num (n : JSNum)
deriving DecidableEq, Repr

/-- `isNumber` from `type-guards.ts` (typeof check), on segments. -/
def isNumber : Seg → Bool
  | .num _ => true
  | .str _ => false

/-- `isNaNValue` from `type-guards.ts`, on segments. -/
def isNaNValue : Seg → Bool
  | .num .nan => true
  | _ => false

/-- `isInfinityValue` from `type-guards.ts`, on segments. -/
def isInfinityValue : Seg → Bool
  | .num .inf => true
  | _ => false

/-- `isNegativeInfinityValue` from `type-guards.ts`, on segments. -/
def isNegativeInfinityValue : Seg → Bool
  | .num .ninf => true
  | _ => false

/-! ## Path codec (`src/utils/property-path-key.ts`)

`stringifyPropertyPath` canonicalizes each segment and then JSON-encodes the
resulting array.  The JSON encoding of `JSON.stringify` is modelled below:
strings are quoted with the standard JSON escapes (`\"`, `\\`, `\b`, `\t`,
`\n`, `\f`, `\r`, and `\u00XX` for the remaining control characters), finite
numbers print in decimal, and non-finite numbers — which JSON cannot
represent — print as `null`.
-/

/-- A single canonicalization strategy applied to one path segment
(`SegmentCanonicalizer`). -/
def SegmentCanonicalizer : Type := Seg → Seg

/-- `composeSegmentCanonicalizers`: run a list of segment canonicalizers in
order. -/
def composeSegmentCanonicalizers (canonicalizers : List SegmentCanonicalizer) :
    SegmentCanonicalizer :=
  fun segment => canonicalizers.foldl (fun current canonicalize => canonicalize current) segment

/-- `canonicalizeIdentifierNumberConstants`: `NaN ↦ "NaN"`,
`Infinity ↦ "Infinity"`; `-Infinity` is intentionally excluded here. -/
def canonicalizeIdentifierNumberConstants (segment : Seg) : Seg :=
  if !isNumber segment then segment
  else if isNaNValue segment then .str "NaN"
  else if isInfinityValue segment then .str "Infinity"
  else segment

/-- `canonicalizeTemplateResults`: currently a no-op. -/
def canonicalizeTemplateResults (segment : Seg) : Seg := segment

/-- `canonicalizeUnaryNumberResults`: `-0 ↦ 0` (vacuous in this model, where
`-0` is already `0`) and `-Infinity ↦ "-Infinity"`.  Defined in the source but
*not* part of the composed master canonicalizer. -/
def canonicalizeUnaryNumberResults (segment : Seg) : Seg :=
  if !isNumber segment then segment
  else if isNegativeInfinityValue segment then .str "-Infinity"
  else segment

/-- `canonicalizeArithmeticNumberResults`: all three non-finite numbers map to
string tokens.  Defined in the source but *not* part of the composed master
canonicalizer. -/
def canonicalizeArithmeticNumberResults (segment : Seg) : Seg :=
  if !isNumber segment then segment
  else if isNaNValue segment then .str "NaN"
  else if isInfinityValue segment then .str "Infinity"
  else if isNegativeInfinityValue segment then .str "-Infinity"
  else segment

/-- `propertyPathSegmentCanonicalizer`: the composed master canonicalizer.
In the source the unary and arithmetic stages are commented out of the
composition, so only the identifier and template stages run. -/
def propertyPathSegmentCanonicalizer : SegmentCanonicalizer :=
  composeSegmentCanonicalizers
    [canonicalizeIdentifierNumberConstants,
     canonicalizeTemplateResults]

/-- Lowercase hex digit, as used by `JSON.stringify`'s `\u00XX` escapes. -/
def hexDigit (n : Nat) : Char :=
  if n < 10 then Char.ofNat (48 + n) else Char.ofNat (87 + n)

/-- One character of a JSON string body, escaped as `JSON.stringify` does. -/
def escapePair (e : Char) : List Char := ['\\', e]

def escapeChar (c : Char) : List Char :=
  match c with
  | '"' => escapePair '"'
  | '\\' => escapePair '\\'
  | '\x08' => escapePair 'b'
  | '\x09' => escapePair 't'
  | '\x0a' => escapePair 'n'
  | '\x0c' => escapePair 'f'
  | '\x0d' => escapePair 'r'
  | c =>
    if c.toNat < 32 then
      '\\' :: 'u' :: '0' :: '0' :: hexDigit (c.toNat / 16) :: [hexDigit (c.toNat % 16)]
    else [c]

/-- JSON string body: every character escaped. -/
def escBody : List Char → List Char
  | [] => []
  | c :: cs => escapeChar c ++ escBody cs

/-- Decimal digit character. -/
def digitChar10 (d : Nat) : Char := Char.ofNat (48 + d)

/-- Decimal representation of a natural number (`String(n)` for a
nonnegative integer). -/
def natRepr (n : Nat) : List Char :=
  if n = 0 then ['0'] else ((Nat.digits 10 n).map digitChar10).reverse

/-- Decimal representation of an integer (`String(i)` / JSON number
formatting for integral values). -/
def intRepr (i : Int) : List Char :=
  if i < 0 then '-' :: natRepr i.natAbs else natRepr i.toNat

/-- JSON encoding of a single (already canonicalized) path segment:
strings are quoted and escaped, finite numbers print in decimal, non-finite
numbers print as `null` (JSON cannot represent them). -/
def jsonSegment : Seg → List Char
  | .str s => '"' :: (escBody s.data ++ ['"'])
  | .num (.fin i) => intRepr i
  | .num .nan => ['n', 'u', 'l', 'l']
  | .num .inf => ['n', 'u', 'l', 'l']
  | .num .ninf => ['n', 'u', 'l', 'l']

/-- Comma-join of encoded segments (the element list of a JSON array). -/
def commaJoin : List (List Char) → List Char
  | [] => []
  | [u] => u
  | u :: v :: rest => u ++ ',' :: commaJoin (v :: rest)

/-- `canonicalizePropertyPath`: canonicalized copy of a property path. -/
def canonicalizePropertyPath (path : List Seg) : List Seg :=
  path.map (fun segment => propertyPathSegmentCanonicalizer segment)

/-- `stringifyPropertyPath`: the canonical string key used for Map/Set
lookups — `JSON.stringify` of the canonicalized path. -/
def stringifyPropertyPath (path : List Seg) : String :=
  ⟨'[' :: (commaJoin ((canonicalizePropertyPath path).map jsonSegment) ++ [']'])⟩

/-- The logical-path segments over which the amended injectivity claim is
stated: string segments and finite numeric segments. -/
def goodSeg : Seg → Prop
  | .str _ => True
  | .num (.fin _) => True
  | .num _ => False

instance : DecidablePred goodSeg := fun s => by
  unfold goodSeg
  cases s with
  | str _ => exact inferInstanceAs (Decidable True)
  | num n => cases n with
    | fin _ => exact inferInstanceAs (Decidable True)
    | nan => exact inferInstanceAs (Decidable False)
    | inf => exact inferInstanceAs (Decidable False)
    | ninf => exact inferInstanceAs (Decidable False)

/-! ## Plain data values

The value universe shared by the extractor, overlay merger, planner and
patcher: primitives, regex literals, keyed containers (association lists in
`Object.keys` enumeration order), ordered containers with explicit holes
(sparse slots), and the branded `ExpressionRef` preservation placeholder
(`src/expression-ref.ts`), which carries only its logical path.
-/

inductive JSValue where
  | str (s : String)
  | num (n : JSNum)
  | bool (b : Bool)
  | null
  | undef
  | bigint (i : Int)
  | regex (pattern flags : String)
  | obj (entries : List (String × JSValue))
  | arr (elems : List (Option JSValue))
  | ref (path : List Seg)
deriving Repr

mutual

/-- Structural value equality, used to model `Object.is` in the tree-shaped
(identity-free) fragment of the development.  On primitives this agrees with
`Object.is` exactly (`Object.is(NaN, NaN)` is `true`, matching constructor
equality here); on containers it is the structural abstraction of reference
equality. -/
def jsEq : JSValue → JSValue → Bool
  | .str a, .str b => a == b
  | .num a, .num b => a == b
  | .bool a, .bool b => a == b
  | .null, .null => true
  | .undef, .undef => true
  | .bigint a, .bigint b => a == b
  | .regex p1 f1, .regex p2 f2 => p1 == p2 && f1 == f2
  | .obj as, .obj bs => jsEqEntries as bs
  | .arr as, .arr bs => jsEqElems as bs
  | .ref p, .ref q => p == q
  | _, _ => false

/-- Structural equality of keyed-container entry lists. -/
def jsEqEntries : List (String × JSValue) → List (String × JSValue) → Bool
  | [], [] => true
  | (k1, v1) :: r1, (k2, v2) :: r2 => k1 == k2 && jsEq v1 v2 && jsEqEntries r1 r2
  | _, _ => false

/-- Structural equality of ordered-container element lists. -/
def jsEqElems : List (Option JSValue) → List (Option JSValue) → Bool
  | [], [] => true
  | none :: r1, none :: r2 => jsEqElems r1 r2
  | some v1 :: r1, some v2 :: r2 => jsEq v1 v2 && jsEqElems r1 r2
  | _, _ => false

end

/-- `isPlainObject` from `src/guards.ts`: a plain keyed container. -/
def isPlainObject : JSValue → Bool
  | .obj _ => true
  | _ => false

/-- `String(n)` for the modelled JavaScript numbers. -/
def jsNumToString : JSNum → String
  | .fin i => ⟨intRepr i⟩
  | .nan => "NaN"
  | .inf => "Infinity"
  | .ninf => "-Infinity"

/-- Coercion of a path segment to the string actually used as a JavaScript
object key (`target[key]` coerces numeric keys to strings). -/
def jsKeyString : Seg → String
  | .str s => s
  | .num n => jsNumToString n

/-- `isKeyPreserved` from `src/utils/path-utils.ts`: the key, coerced to a
string, is looked up in the configured preserve set. -/
def isKeyPreserved (key : Seg) (preservedKeys : List String) : Bool :=
  jsKeyString key ∈ preservedKeys

/-- `PropertyPatch` from `src/types`: a `set` overwrites the value at an
existing slot, a `delete` removes a slot. -/
inductive PropertyPatch where
  | set (path : List Seg) (value : JSValue)
  | delete (path : List Seg)
deriving Repr

/-- The `path` field of a patch. -/
def PropertyPatch.path : PropertyPatch → List Seg
  | .set p _ => p
  | .delete p => p

/-! ## Patch guards (`src/patch-guards.ts`, `visitor.ts`) -/

/-- The `scope` of a preservation check. -/
inductive CheckScope where
  | rootOnly
  | anywhere
deriving DecidableEq, Repr

/-- `PreservationCheckOptions`. -/
structure PreservationCheckOptions where
  scope : CheckScope
  keyTypeLabel : String

/-- `findRestrictedKey`: first restricted key in a patch path under the given
scope, or `none`. -/
def findRestrictedKey (patch : PropertyPatch) (restrictedKeys : List String)
    (scope : CheckScope) : Option String :=
  match scope with
  | .rootOnly =>
    match patch.path with
    | Seg.str first :: _ => if first ∈ restrictedKeys then some first else none
    | _ => none
  | .anywhere =>
    patch.path.findSome? fun segment =>
      match segment with
      | Seg.str s => if s ∈ restrictedKeys then some s else none
      | _ => none

/-- `capitalize`: first letter upper-cased, used for error messages. -/
def capitalize (s : String) : String :=
  match s.data with
  | [] => ""
  | c :: rest => ⟨c.toUpper :: rest⟩

/-- `assertPatchesRespectPreservation`: throws (modelled as `Except.error`)
for the first patch whose path violates the preservation constraint under the
configured scope. -/
def assertPatchesRespectPreservation (patches : List PropertyPatch)
    (restrictedKeys : List String) (componentName : String)
    (options : PreservationCheckOptions) : Except String Unit :=
  match patches with
  | [] => .ok ()
  | patch :: rest =>
    match findRestrictedKey patch restrictedKeys options.scope with
    | none => assertPatchesRespectPreservation rest restrictedKeys componentName options
    | some violatedKey =>
      let pathDetail :=
        match options.scope with
        | .anywhere => " at " ++ stringifyPropertyPath patch.path
        | .rootOnly => ""
      .error ("[recma] Patch targets " ++ options.keyTypeLabel ++ " key \"" ++ violatedKey ++
        "\"" ++ pathDetail ++ " for " ++ componentName ++ ". " ++
        capitalize options.keyTypeLabel ++
        " keys must not be patched as they represent runtime-owned subtrees.")

/-- The preservation guard exactly as `processComponent` (`visitor.ts`,
step 3.5) invokes it on the consolidated patch list: scope `'root-only'`,
label `"preserved"`. -/
def processComponentPreservationGuard (patches : List PropertyPatch)
    (preservedKeys : List String) (componentName : String) : Except String Unit :=
  assertPatchesRespectPreservation patches preservedKeys componentName
    ⟨CheckScope.rootOnly, "preserved"⟩

/-! ## Validator (`src/validator.ts`) -/

/-- A single issue of a Standard Schema validation result. -/
structure StandardIssue where
  path : Option (List String)
  message : String

/-- Outcome of calling `schema['~standard'].validate`: either a `Promise`
(asynchronous validation) or a result record which may carry `issues` and/or
a decoded `value`.  `Option` models property presence. -/
inductive ValidateOutcome where
  | promise
  | result (issues : Option (List StandardIssue)) (value : Option JSValue)

/-- The `'~standard'` sub-object of a Standard Schema. -/
structure StandardSchemaNode where
  validate : JSValue → ValidateOutcome

/-- A provided schema object; `standard = none` models an object lacking the
`'~standard'` property. -/
structure ComponentSchemaObj where
  standard : Option StandardSchemaNode

/-- The path label used in a validation error: `firstIssue.path?.join('.')
?? 'unknown'`. -/
def issuePathLabel (issue : StandardIssue) : String :=
  match issue.path with
  | some p => String.intercalate "." p
  | none => "unknown"

/-- `validateWithSchema` from `src/validator.ts`.  `schema = none` models an
`undefined` schema (passthrough); exceptions are modelled as `Except.error`
with the thrown message. -/
def validateWithSchema (schema : Option ComponentSchemaObj) (inputProps : JSValue)
    (componentName : String) : Except String JSValue :=
  match schema with
  | none => .ok inputProps
  | some s =>
    match s.standard with
    | none =>
      .error ("The schema for \"" ++ componentName ++
        "\" is invalid. Expected an object with the \"~standard\" property (e.g. Zod, Valibot), but received a plain object.")
    | some std =>
      match std.validate inputProps with
      | .promise =>
        .error ("Async schema validation is not supported for \"" ++ componentName ++ "\".")
      | .result issues value =>
        match (issues.getD []).head? with
        | some firstIssue =>
          .error ("Invalid props for \"" ++ componentName ++ "\" at \"" ++
            issuePathLabel firstIssue ++ "\": " ++ firstIssue.message)
        | none =>
          match value with
          | some v => .ok v
          | none => .ok inputProps

/-! ## Keyed-container (plain object) primitives

Association lists model plain JavaScript objects: the list order is the
`Object.keys` enumeration order, and `obj[k] = v` (`assocSet`) updates an
existing key's value in place (preserving its position) or appends a fresh
key last, exactly as JS property assignment orders keys.  JS objects cannot
carry duplicate keys, so iterating an object's entry list is iterating
`Object.keys` with its per-key values.
-/

/-- Property read `obj[k]` (as an `Option`; a missing key reads `undefined`). -/
def objLookup : List (String × JSValue) → String → Option JSValue
  | [], _ => none
  | (k1, v1) :: rest, k => if k1 = k then some v1 else objLookup rest k

/-- `Object.hasOwn(obj, k)`. -/
def objHasOwn (entries : List (String × JSValue)) (k : String) : Bool :=
  entries.any (fun e => e.1 = k)

/-- Property assignment `obj[k] = v`. -/
def assocSet : List (String × JSValue) → String → JSValue → List (String × JSValue)
  | [], k, v => [(k, v)]
  | (k1, v1) :: rest, k, v =>
    if k1 = k then (k1, v) :: rest else (k1, v1) :: assocSet rest k v

/-! ## Overlay merger (`src/object-overlay.ts`) -/

mutual

/-- `overlayValue`: the value dispatcher — identity short-circuit, atomic
array replacement, recursive keyed-container merge, primitive replacement. -/
def overlayValue (basePropValue overlayPropValue : JSValue)
    (preservedKeys : List String) : JSValue :=
  if jsEq basePropValue overlayPropValue then basePropValue
  else
    match basePropValue, overlayPropValue with
    | .arr _, .arr _ => overlayPropValue
    | .obj baseEntries, .obj overlayEntries =>
      .obj (overlayObject baseEntries overlayEntries preservedKeys)
    | _, _ => overlayPropValue

/-- `overlayObject`: iterate the overlay's keys over the base topology. -/
def overlayObject (base overlay : List (String × JSValue))
    (preservedKeys : List String) : List (String × JSValue) :=
  overlayObjectGo base overlay preservedKeys base

/-- The `for (const candidateKey of Object.keys(overlay))` loop of
`overlayObject`, with the under-construction result as accumulator (the
source's lazily allocated `resultObject`, seeded from `{...base}`). -/
def overlayObjectGo (base : List (String × JSValue))
    (overlayEntries : List (String × JSValue)) (preservedKeys : List String)
    (acc : List (String × JSValue)) : List (String × JSValue) :=
  match overlayEntries with
  | [] => acc
  | (candidateKey, overlayPropValue) :: rest =>
    if isKeyPreserved (.str candidateKey) preservedKeys then
      overlayObjectGo base rest preservedKeys acc
    else if !objHasOwn base candidateKey then
      overlayObjectGo base rest preservedKeys acc
    else
      -- basePropValue = base[candidateKey]; mergedValue = overlayValue(...)
      if jsEq (overlayValue ((objLookup base candidateKey).getD JSValue.undef)
            overlayPropValue preservedKeys)
          ((objLookup base candidateKey).getD JSValue.undef) then
        overlayObjectGo base rest preservedKeys acc
      else
        overlayObjectGo base rest preservedKeys
          (assocSet acc candidateKey
            (overlayValue ((objLookup base candidateKey).getD JSValue.undef)
              overlayPropValue preservedKeys))

end

/-- `applyOverlay`: public entry point (identity short-circuit, then the
object iterator). -/
def applyOverlay (base overlay : List (String × JSValue))
    (preservedKeys : List String) : List (String × JSValue) :=
  if jsEqEntries base overlay then base
  else overlayObject base overlay preservedKeys

/-! ## Structural differ (`src/differ`, i.e. the `object-graph-delta` library)

The differ (`compare` / `compareChildren` / `diff` of the differ's core
module, plus `strategies.ts` and the utility predicates) is transcribed once,
generically over a `DiffWorld`: the small container interface its utility
functions (`isContainer`, `getSafeValue`, `Object.keys` iteration,
`Object.is`, `isRichType`, `areBoxedPrimitivesEqual`,
`areArraysShallowEqual`) provide.  It is then instantiated twice:

* a *tree world* over `JSValue`, where `Object.is` is structural equality
  (the identity-free model used by the patch planner), and
* a *store world* over heap addresses, where `Object.is` on containers is
  address equality — the model in which reference identity and circular
  references are meaningful.

JavaScript's unbounded recursion is modelled with a fuel parameter: each
nested `compare` call consumes one unit, and `none` means the fuel ran out.
-/

/-- The diff event type (`DiffResult`): CREATE / REMOVE / CHANGE with the
logical path from the root. -/
inductive DiffEvent (V : Type) where
  | create (path : List Seg) (value : V)
  | remove (path : List Seg) (oldValue : V)
  | change (path : List Seg) (value : V) (oldValue : V)
deriving DecidableEq, Repr

/-- The `path` of a diff event. -/
def DiffEvent.path {V : Type} : DiffEvent V → List Seg
  | .create p _ => p
  | .remove p _ => p
  | .change p _ _ => p

/-- Whether an event is a CREATE. -/
def DiffEvent.isCreate {V : Type} : DiffEvent V → Prop
  | .create _ _ => True
  | _ => False

/-- `prependPath` applied to one event: unshift the parent's segment. -/
def DiffEvent.prepend {V : Type} (seg : Seg) : DiffEvent V → DiffEvent V
  | .create p v => .create (seg :: p) v
  | .remove p v => .remove (seg :: p) v
  | .change p v o => .change (seg :: p) v o

/-- The `arrays` policy of the differ's options. -/
inductive ArrayMode where
  | diff
  | atomic
  | ignore
deriving DecidableEq, Repr

/-- The `arrayEquality` policy. -/
inductive ArrayEquality where
  | reference
  | shallow
deriving DecidableEq, Repr

/-- Fully normalized differ `Options`. -/
structure DiffOptions where
  trackCircularReferences : Bool
  arrays : ArrayMode
  arrayEquality : ArrayEquality
  keysToSkip : List String

/-- User-facing `Partial<Options>`. -/
structure PartialDiffOptions where
  trackCircularReferences : Option Bool := none
  arrays : Option ArrayMode := none
  arrayEquality : Option ArrayEquality := none
  keysToSkip : Option (List String) := none

/-- `normalizeOptions`: merge with the library defaults
(`trackCircularReferences: true`, `arrays: 'atomic'`,
`arrayEquality: 'reference'`, `keysToSkip: []`). -/
def normalizeOptions (o : PartialDiffOptions) : DiffOptions where
  trackCircularReferences := o.trackCircularReferences.getD true
  arrays := o.arrays.getD .atomic
  arrayEquality := o.arrayEquality.getD .reference
  keysToSkip := o.keysToSkip.getD []

/-- The container interface of the differ's utility module, over a value
type `V`.  `keys` lists a container's own enumerable keys in order (object
keys as string segments, array indices as numeric segments, skipping sparse
holes, as `Object.keys` does). -/
structure DiffWorld (V : Type) where
  isContainer : V → Bool
  isArray : V → Bool
  keys : V → List Seg
  keyIn : Seg → V → Bool
  getSafe : V → Seg → V
  objectIs : V → V → Bool
  isRich : V → Bool
  boxedEqual : V → V → Bool
  shallowArrayEqual : V → V → Bool

/-- `shouldSkipKey`: array indices are never skipped; object keys are
skipped when listed in `keysToSkip`. -/
def shouldSkipKey (key : Seg) (isContainerArray : Bool) (keysToSkip : List String) : Bool :=
  if isContainerArray then false
  else
    match key with
    | .str s => keysToSkip.contains s
    | .num _ => false

/-- `isCycleDetected`: the exact pair of references is already on the
current recursion stack. -/
def isCycleDetected {V : Type} (W : DiffWorld V) (stack : List (V × V))
    (previous current : V) : Bool :=
  stack.any fun e => W.objectIs e.1 previous && W.objectIs e.2 current

/-- `pushCycleEntry`: append the pair when tracking is enabled. -/
def pushCycleEntry {V : Type} (options : DiffOptions) (stack : List (V × V))
    (previous current : V) : List (V × V) :=
  if options.trackCircularReferences then stack ++ [(previous, current)] else stack

/-- Step 4 of `compareChildren` (shallow leaf comparison): a CHANGE event
when `Object.is` fails and the values are not equal boxed primitives. -/
def leafChange {V : Type} (W : DiffWorld V) (key : Seg)
    (previousValue currentValue : V) : Option (DiffEvent V) :=
  if !W.objectIs previousValue currentValue &&
      !(W.isContainer previousValue && W.isContainer currentValue &&
        W.boxedEqual previousValue currentValue) then
    some (.change [key] currentValue previousValue)
  else none

/-- Phase 1 of `compareChildren`: iterate the previous container's own keys,
emitting REMOVE for keys missing from the current container, recursing into
compatible container pairs (`child` is the recursive `compare` call, which
may run out of fuel), and comparing leaves shallowly. -/
def phase1 {V : Type} (W : DiffWorld V) (options : DiffOptions)
    (previousContainer currentContainer : V) (cycleStack : List (V × V))
    (child : V → V → List (V × V) → Option (List (DiffEvent V))) :
    List Seg → Option (List (DiffEvent V))
  | [] => some []
  | key :: restKeys =>
    if shouldSkipKey key (W.isArray previousContainer) options.keysToSkip then
      phase1 W options previousContainer currentContainer cycleStack child restKeys
    else if !W.keyIn key currentContainer then
      (phase1 W options previousContainer currentContainer cycleStack child restKeys).map
        (fun rest => .remove [key] (W.getSafe previousContainer key) :: rest)
    else if W.isContainer (W.getSafe previousContainer key) &&
        W.isContainer (W.getSafe currentContainer key) &&
        (W.isArray (W.getSafe previousContainer key) ==
          W.isArray (W.getSafe currentContainer key)) then
      if options.trackCircularReferences &&
          isCycleDetected W cycleStack (W.getSafe previousContainer key)
            (W.getSafe currentContainer key) then
        phase1 W options previousContainer currentContainer cycleStack child restKeys
      else if !W.isRich (W.getSafe previousContainer key) then
        match child (W.getSafe previousContainer key) (W.getSafe currentContainer key)
            (pushCycleEntry options cycleStack (W.getSafe previousContainer key)
              (W.getSafe currentContainer key)) with
        | none => none
        | some childDiffs =>
          (phase1 W options previousContainer currentContainer cycleStack child restKeys).map
            (fun rest => childDiffs.map (DiffEvent.prepend key) ++ rest)
      else
        match leafChange W key (W.getSafe previousContainer key)
            (W.getSafe currentContainer key) with
        | some e =>
          (phase1 W options previousContainer currentContainer cycleStack child restKeys).map
            (fun rest => e :: rest)
        | none => phase1 W options previousContainer currentContainer cycleStack child restKeys
    else
      match leafChange W key (W.getSafe previousContainer key)
          (W.getSafe currentContainer key) with
      | some e =>
        (phase1 W options previousContainer currentContainer cycleStack child restKeys).map
          (fun rest => e :: rest)
      | none => phase1 W options previousContainer currentContainer cycleStack child restKeys

/-- Phase 2 of `compareChildren`: iterate the current container's own keys,
emitting CREATE for keys missing from the previous container. -/
def phase2 {V : Type} (W : DiffWorld V) (options : DiffOptions)
    (previousContainer currentContainer : V) : List (DiffEvent V) :=
  (W.keys currentContainer).filterMap fun key =>
    if shouldSkipKey key (W.isArray currentContainer) options.keysToSkip then none
    else if !W.keyIn key previousContainer then
      some (.create [key] (W.getSafe currentContainer key))
    else none

/-- `compareChildren`: removals and modifications (phase 1, over the previous
container's keys) followed by additions (phase 2, over the current
container's keys). -/
def compareChildren {V : Type} (W : DiffWorld V) (options : DiffOptions)
    (previousContainer currentContainer : V) (cycleStack : List (V × V))
    (child : V → V → List (V × V) → Option (List (DiffEvent V))) :
    Option (List (DiffEvent V)) :=
  match phase1 W options previousContainer currentContainer cycleStack child
      (W.keys previousContainer) with
  | none => none
  | some differences => some (differences ++ phase2 W options previousContainer currentContainer)

/-- The `'atomic'` strategy's comparator (`getArrayStrategy`): reference
equality, or shallow same-length element-wise identity. -/
def arrayComparator {V : Type} (W : DiffWorld V) (options : DiffOptions) : V → V → Bool :=
  match options.arrayEquality with
  | .reference => W.objectIs
  | .shallow => W.shallowArrayEqual

/-- `checkArrayStrategy`: `(shouldRecurse, diffs)` for a pair of arrays. -/
def checkArrayStrategy {V : Type} (W : DiffWorld V) (options : DiffOptions)
    (previous current : V) : Bool × List (DiffEvent V) :=
  match options.arrays with
  | .ignore => (false, [])
  | .atomic =>
    if arrayComparator W options previous current then (false, [])
    else (false, [.change [] current previous])
  | .diff => (true, [])

/-- `compare`: the central recursive dispatch — array strategy first, then
key/index traversal via `compareChildren`.  One unit of fuel per nested
`compare` call. -/
def compareF {V : Type} (W : DiffWorld V) :
    Nat → V → V → DiffOptions → List (V × V) → Option (List (DiffEvent V))
  | 0, _, _, _, _ => none
  | Nat.succ fuel, previous, current, options, cycleStack =>
    if W.isArray previous && W.isArray current then
      if !(checkArrayStrategy W options previous current).1 then
        some (checkArrayStrategy W options previous current).2
      else
        compareChildren W options previous current cycleStack
          (fun p c st => compareF W fuel p c options st)
    else
      compareChildren W options previous current cycleStack
        (fun p c st => compareF W fuel p c options st)

/-- `diff`: normalize the options and start the recursion with an empty
cycle stack. -/
def diffF {V : Type} (W : DiffWorld V) (fuel : Nat) (previous current : V)
    (options : PartialDiffOptions) : Option (List (DiffEvent V)) :=
  compareF W fuel previous current (normalizeOptions options) []

/-! ### The tree world (structural `Object.is`, used by the patch planner) -/

/-- Read `arr[i]` on a possibly sparse array: a hole or an out-of-range
index reads `undefined`. -/
def arrRead (els : List (Option JSValue)) (i : Nat) : JSValue :=
  ((els.get? i).bind id).getD JSValue.undef

/-- `areArraysShallowEqual` on tree values: reference equality (structural
here) or same length and element-wise `Object.is` — where, as with
`Array.prototype.every`, hole positions of the left array are skipped. -/
def arraysShallowEqualT (l r : List (Option JSValue)) : Bool :=
  jsEqElems l r ||
    (l.length == r.length &&
      (List.range l.length).all fun i =>
        match (l.get? i).bind id with
        | none => true
        | some v => jsEq v (arrRead r i))

/-- The tree world over `JSValue`.  `ExpressionRef` placeholders are opaque
leaves here (their identity is their path); `RegExp` values are the rich
(atomic) containers reachable in extracted data.  Own-property checks model
the source's `in` without the prototype chain. -/
def treeWorld : DiffWorld JSValue where
  isContainer v :=
    match v with
    | .obj _ => true
    | .arr _ => true
    | .regex _ _ => true
    | _ => false
  isArray v :=
    match v with
    | .arr _ => true
    | _ => false
  keys v :=
    match v with
    | .obj entries => entries.map (fun e => Seg.str e.1)
    | .arr els =>
      (List.range els.length).filterMap fun i =>
        if ((els.get? i).bind id).isSome then some (Seg.num (.fin i)) else none
    | _ => []
  keyIn key v :=
    match key, v with
    | .str s, .obj entries => objHasOwn entries s
    | .num n, .obj entries => objHasOwn entries (jsNumToString n)
    | .num (.fin i), .arr els =>
      decide (0 ≤ i) && decide (i.toNat < els.length) &&
        ((els.get? i.toNat).bind id).isSome
    | .str s, .arr els =>
      match s.toNat? with
      | some i => ((els.get? i).bind id).isSome
      | none => false
    | _, _ => false
  getSafe v key :=
    match key, v with
    | .str s, .obj entries => (objLookup entries s).getD JSValue.undef
    | .num n, .obj entries => (objLookup entries (jsNumToString n)).getD JSValue.undef
    | .num (.fin i), .arr els => if 0 ≤ i then arrRead els i.toNat else JSValue.undef
    | .str s, .arr els =>
      match s.toNat? with
      | some i => arrRead els i
      | none => JSValue.undef
    | _, _ => JSValue.undef
  objectIs := jsEq
  isRich v :=
    match v with
    | .regex _ _ => true
    | _ => false
  boxedEqual l r :=
    match l, r with
    | .regex p1 f1, .regex p2 f2 => p1 == p2 && f1 == f2
    | _, _ => false
  shallowArrayEqual l r :=
    match l, r with
    | .arr le, .arr re => arraysShallowEqualT le re
    | _, _ => false

/-- The differ as the patch planner calls it (tree values). -/
def diffTree (fuel : Nat) (previous current : JSValue)
    (options : PartialDiffOptions) : Option (List (DiffEvent JSValue)) :=
  diffF treeWorld fuel previous current options

/-! ### The store world (reference identity, cycle-capable)

Containers live in a heap: a `Store` maps numeric addresses to container
data, values are primitives or references, and `Object.is` on containers is
address equality.  Self- and mutually-referential object graphs are ordinary
stores here (e.g. `[(0, obj [("self", ref 0)])]`).
-/

/-- A heap value: a primitive, or a reference to a container. -/
inductive StoreVal where
  | str (s : String)
  | num (n : JSNum)
  | bool (b : Bool)
  | null
  | undef
  | bigint (i : Int)
  | ref (a : Nat)
deriving DecidableEq, Repr

/-- The rich (atomic) built-in container tags of the differ's `Tag` table. -/
inductive RichTag where
  | boxedString
  | boxedNumber
  | boxedBoolean
  | boxedBigInt
  | date
  | regexp
deriving DecidableEq, Repr

/-- Container data stored at an address: a keyed container, an ordered
container (with sparse holes), or a rich wrapper with its unboxed content. -/
inductive ContainerData where
  | obj (entries : List (String × StoreVal))
  | arr (elems : List (Option StoreVal))
  | rich (tag : RichTag) (content : StoreVal)
deriving DecidableEq, Repr

/-- A heap: addresses to container data. -/
abbrev Store : Type := List (Nat × ContainerData)

/-- Address lookup. -/
def lookupC (σ : Store) (a : Nat) : Option ContainerData :=
  match σ with
  | [] => none
  | (a1, d) :: rest => if a1 = a then some d else lookupC rest a

/-- Total address dereference (a dangling address reads as an empty object;
well-formed stores have none). -/
def getC (σ : Store) (a : Nat) : ContainerData :=
  (lookupC σ a).getD (.obj [])

/-- Property read on store container data (missing reads `undefined`). -/
def sObjLookup : List (String × StoreVal) → String → Option StoreVal
  | [], _ => none
  | (k1, v1) :: rest, k => if k1 = k then some v1 else sObjLookup rest k

/-- `Object.hasOwn` on store object entries. -/
def sObjHasOwn (entries : List (String × StoreVal)) (k : String) : Bool :=
  entries.any (fun e => e.1 = k)

/-- Read `arr[i]` on store array elements. -/
def sArrRead (els : List (Option StoreVal)) (i : Nat) : StoreVal :=
  ((els.get? i).bind id).getD StoreVal.undef

/-- `===` on store values: address equality on references, `NaN ≠ NaN` on
numbers (unlike `Object.is`, which this model's `DecidableEq` mirrors). -/
def sStrictEq (l r : StoreVal) : Bool :=
  match l, r with
  | .num .nan, _ => false
  | _, .num .nan => false
  | _, _ => l == r

/-- `areBoxedPrimitivesEqual` on rich container data: same internal tag, and
content comparison following the source case by case — `NaN`-tolerant
`valueOf` equality for boxed numbers, `===` on timestamps for dates,
`toString` comparison for regexps, plain `valueOf` equality otherwise. -/
def sBoxedEqual (l r : ContainerData) : Bool :=
  match l, r with
  | .rich t1 c1, .rich t2 c2 =>
    if t1 ≠ t2 then false
    else
      match t1 with
      | .boxedNumber => c1 == c2
      | .boxedString => sStrictEq c1 c2
      | .boxedBoolean => sStrictEq c1 c2
      | .boxedBigInt => sStrictEq c1 c2
      | .date => sStrictEq c1 c2
      | .regexp => sStrictEq c1 c2
  | _, _ => false

/-- Own enumerable keys of store container data (`Object.keys`): object keys
in insertion order, array indices skipping holes, none for rich wrappers. -/
def containerKeysData : ContainerData → List Seg
  | .obj entries => entries.map (fun e => Seg.str e.1)
  | .arr els =>
    (List.range els.length).filterMap fun i =>
      if ((els.get? i).bind id).isSome then some (Seg.num (.fin i)) else none
  | .rich _ _ => []

/-- `areArraysShallowEqual` on store array elements (element-wise
`Object.is`; hole positions of the left array are skipped, as
`Array.prototype.every` skips them). -/
def sArraysShallowEqual (l r : List (Option StoreVal)) : Bool :=
  (l.length == r.length &&
    (List.range l.length).all fun i =>
      match (l.get? i).bind id with
      | none => true
      | some v => v == sArrRead r i)

/-- The store world over heap values. -/
def storeWorld (σ : Store) : DiffWorld StoreVal where
  isContainer v :=
    match v with
    | .ref _ => true
    | _ => false
  isArray v :=
    match v with
    | .ref a =>
      match getC σ a with
      | .arr _ => true
      | _ => false
    | _ => false
  keys v :=
    match v with
    | .ref a => containerKeysData (getC σ a)
    | _ => []
  keyIn key v :=
    match v with
    | .ref a =>
      match key, getC σ a with
      | .str s, .obj entries => sObjHasOwn entries s
      | .num n, .obj entries => sObjHasOwn entries (jsNumToString n)
      | .num (.fin i), .arr els =>
        decide (0 ≤ i) && decide (i.toNat < els.length) &&
          ((els.get? i.toNat).bind id).isSome
      | .str s, .arr els =>
        match s.toNat? with
        | some i => ((els.get? i).bind id).isSome
        | none => false
      | _, _ => false
    | _ => false
  getSafe v key :=
    match v with
    | .ref a =>
      match key, getC σ a with
      | .str s, .obj entries => (sObjLookup entries s).getD StoreVal.undef
      | .num n, .obj entries => (sObjLookup entries (jsNumToString n)).getD StoreVal.undef
      | .num (.fin i), .arr els => if 0 ≤ i then sArrRead els i.toNat else StoreVal.undef
      | .str s, .arr els =>
        match s.toNat? with
        | some i => sArrRead els i
        | none => StoreVal.undef
      | _, _ => StoreVal.undef
    | _ => StoreVal.undef
  objectIs l r := l == r
  isRich v :=
    match v with
    | .ref a =>
      match getC σ a with
      | .rich _ _ => true
      | _ => false
    | _ => false
  boxedEqual l r :=
    match l, r with
    | .ref a, .ref b => sBoxedEqual (getC σ a) (getC σ b)
    | _, _ => false
  shallowArrayEqual l r :=
    (l == r) ||
      match l, r with
      | .ref a, .ref b =>
        match getC σ a, getC σ b with
        | .arr le, .arr re => sArraysShallowEqual le re
        | _, _ => false
      | _, _ => false

/-- The differ over a heap: reference identity and cycle tracking are
meaningful here. -/
def diffStore (σ : Store) (fuel : Nat) (previous current : StoreVal)
    (options : PartialDiffOptions) : Option (List (DiffEvent StoreVal)) :=
  diffF (storeWorld σ) fuel previous current options

/-- The addresses referenced from container data. -/
def refAddrs : ContainerData → List Nat
  | .obj entries =>
    entries.filterMap fun e =>
      match e.2 with
      | .ref a => some a
      | _ => none
  | .arr els =>
    els.filterMap fun e =>
      match e with
      | some (.ref a) => some a
      | _ => none
  | .rich _ c =>
    match c with
    | .ref a => [a]
    | _ => []

/-- Well-formed store: every reference in it points to a stored container
(as in JavaScript, where every object reference is a real object). -/
def WFStore (σ : Store) : Prop :=
  ∀ e ∈ σ, ∀ b ∈ refAddrs e.2, (lookupC σ b).isSome

/-! ## Patch planner (`patch-planner.ts`: `calculatePatches`) -/

/-- The diff-resolution loop of `calculatePatches`: CHANGE events become
`set` patches; CREATE and REMOVE events are discarded. -/
def collectCoercionPatches : List (DiffEvent JSValue) → List PropertyPatch
  | [] => []
  | entry :: rest =>
    match entry with
    | .change path value _ => .set path value :: collectCoercionPatches rest
    | .create _ _ => collectCoercionPatches rest
    | .remove _ _ => collectCoercionPatches rest

/-- The options object `calculatePatches` passes to `diff`.  The source
spells the array-mode key `arrayPolicy`, which is not a field of the
differ's `Options`, so the `arrays` field is *not* set and keeps its
default; only `arrayEquality` is effectively supplied. -/
def coercionDiffOptions : PartialDiffOptions where
  arrayEquality := some .reference

/-- The per-event translation the claim describes: a CHANGE becomes a `set`
patch at its path with its new value; CREATE and REMOVE become nothing. -/
def changeToSetPatch : DiffEvent JSValue → Option PropertyPatch
  | .change path value _ => some (.set path value)
  | .create _ _ => none
  | .remove _ _ => none

/-- `calculatePatches`: entry guard on both roots, overlay-based diff
target, then CHANGE-only patch collection (fuel drives the differ). -/
def calculatePatchesF (fuel : Nat) (extractedProps validatedProps : JSValue)
    (preservedKeys : List String) : Option (List PropertyPatch) :=
  if !(isPlainObject extractedProps && isPlainObject validatedProps) then some []
  else
    match extractedProps, validatedProps with
    | .obj extractedEntries, .obj validatedEntries =>
      match diffTree fuel (.obj extractedEntries)
          (.obj (applyOverlay extractedEntries validatedEntries preservedKeys))
          coercionDiffOptions with
      | none => none
      | some difference => some (collectCoercionPatches difference)
    | _, _ => some []

/-! ## Extractor (`src/extractor`: `static-resolver.ts`, `key-extractor.ts`,
`index.ts`)

The expression AST carries exactly the distinctions the extractor inspects:
literals with their parsed value, identifiers with their name, template
literals as alternating cooked quasis (`none` for an uninterpretable escape)
and interpolated expressions, array expressions whose element slots are
holes, spreads or expressions, object expressions whose properties are
spreads or (computed?, key, value) triples, and `dyn` for every other node
kind (calls, member accesses, JSX, operators, …), which no resolution
strategy accepts.  `SKIP_VALUE` is modelled as `Option.none`.
-/

mutual

inductive Expr where
  | lit (value : JSValue)
  | ident (name : String)
  | template (quasis : List (Option String)) (expressions : List Expr)
  | array (elements : List ArrElem)
  | object (properties : List ObjProp)
  | dyn
deriving Repr

inductive ArrElem where
  | hole
  | spread
  | elem (e : Expr)
deriving Repr

inductive ObjProp where
  | spread
  | prop (computed : Bool) (key : Expr) (value : Expr)
deriving Repr

end

/-- `String(v)` as used for template interpolation (`${result.value}`).
`tryResolveStaticValue` only ever produces primitives, strings or regexes,
so the keyed/ordered-container branches are unreachable from the resolver;
they are given the JavaScript default for keyed containers and a degenerate
value for the rest. -/
def jsTemplateString : JSValue → String
  | .str s => s
  | .num n => jsNumToString n
  | .bool b => if b then "true" else "false"
  | .null => "null"
  | .undef => "undefined"
  | .bigint i => ⟨intRepr i⟩
  | .regex p f => "/" ++ p ++ "/" ++ f
  | .obj _ => "[object Object]"
  | .arr _ => ""
  | .ref _ => ""

/-- `tryResolveLiteral`: a `Literal` node resolves when its parsed value is a
string, number, boolean, bigint, `null` or a `RegExp` instance. -/
def tryResolveLiteral : Expr → Option JSValue
  | .lit v =>
    match v with
    | .str s => some (.str s)
    | .num n => some (.num n)
    | .bool b => some (.bool b)
    | .bigint i => some (.bigint i)
    | .null => some .null
    | .regex p f => some (.regex p f)
    | _ => none
  | _ => none

/-- `tryResolveIdentifier`: the global constants `undefined`, `NaN` and
`Infinity` fold to their values; every other identifier is unresolved. -/
def tryResolveIdentifier : Expr → Option JSValue
  | .ident name =>
    if name = "undefined" then some JSValue.undef
    else if name = "NaN" then some (.num .nan)
    else if name = "Infinity" then some (.num .inf)
    else none
  | _ => none

mutual

/-- `tryResolveStaticValue`: literals, then global-constant identifiers, then
template literals (the `tryResolveTemplate` strategy, inlined here as the
final dispatch case); everything else is unresolved. -/
def tryResolveStaticValue (node : Expr) : Option JSValue :=
  match tryResolveLiteral node with
  | some v => some v
  | none =>
    match tryResolveIdentifier node with
    | some v => some v
    | none =>
      match node with
      | .template quasis expressions =>
        (resolveTemplateParts quasis expressions).map JSValue.str
      | _ => none

/-- The quasi-framed zipper of `tryResolveTemplate`: each cooked text part is
appended (an uninterpretable escape fails the template), and while
expressions remain, the next one must resolve and is stringified in
between. -/
def resolveTemplateParts : List (Option String) → List Expr → Option String
  | [], _ => some ""
  | none :: _, _ => none
  | some text :: qrest, [] =>
    (resolveTemplateParts qrest []).map (fun r => text ++ r)
  | some text :: qrest, e :: erest =>
    match tryResolveStaticValue e with
    | none => none
    | some v =>
      (resolveTemplateParts qrest erest).map
        (fun r => text ++ jsTemplateString v ++ r)

end

/-- `tryExtractNamedKey`: a non-computed identifier key is a static label. -/
def tryExtractNamedKey (computed : Bool) (key : Expr) : Option String :=
  if !computed then
    match key with
    | .ident name => some name
    | _ => none
  else none

/-- `extractPropertyKey`: syntax pathway (named key) first, then data
pathway (static resolution), constrained to string and number keys. -/
def extractPropertyKey (computed : Bool) (key : Expr) : Option Seg :=
  match tryExtractNamedKey computed key with
  | some namedKey => some (.str namedKey)
  | none =>
    match tryResolveStaticValue key with
    | some resolvedValue =>
      match resolvedValue with
      | .str s => some (.str s)
      | .num n => some (.num n)
      | _ => none
    | none => none

mutual

/-- `extractStaticValueFromExpression`: direct resolution, then the array
and object container strategies, then the dynamic fallthrough
(`SKIP_VALUE`, modelled as `none`).  The `onPreservedExpression` side
channel carries no data into the result and is not modelled. -/
def extractStaticValueFromExpression (expressionNode : Expr)
    (preservedKeys : List String) (pathSegments : List Seg) : Option JSValue :=
  match tryResolveStaticValue expressionNode with
  | some staticResolution => some staticResolution
  | none =>
    match expressionNode with
    | .array elements =>
      (extractStaticValueFromArrayExpression elements preservedKeys pathSegments 0).map
        JSValue.arr
    | .object properties =>
      some (.obj (extractStaticValueFromObjectExpression properties preservedKeys
        pathSegments []))
    | _ => none

/-- `extractStaticValueFromArrayExpression` (strict policy), iterating the
element slots with their indices: an elision is preserved as a hole, a
spread aborts the whole array, and a failing element aborts the whole array
(fail-fast). -/
def extractStaticValueFromArrayExpression (elements : List ArrElem)
    (preservedKeys : List String) (pathSegments : List Seg) (index : Nat) :
    Option (List (Option JSValue)) :=
  match elements with
  | [] => some []
  | .hole :: rest =>
    (extractStaticValueFromArrayExpression rest preservedKeys pathSegments (index + 1)).map
      (fun candidate => none :: candidate)
  | .spread :: _ => none
  | .elem elementNode :: rest =>
    match extractStaticValueFromExpression elementNode preservedKeys
        (pathSegments ++ [Seg.num (.fin index)]) with
    | none => none
    | some extracted =>
      (extractStaticValueFromArrayExpression rest preservedKeys pathSegments (index + 1)).map
        (fun candidate => some extracted :: candidate)

/-- `extractStaticValueFromObjectExpression` (partial policy), threading the
`aggregate` object through JavaScript property assignment (`assocSet`):
spreads and dynamic keys are skipped, a preserved key stores an
`ExpressionRef` placeholder for its path, and otherwise a resolving value is
assigned while a failing one leaves the aggregate untouched
(`integrateObjectEntry`). -/
def extractStaticValueFromObjectExpression (properties : List ObjProp)
    (preservedKeys : List String) (pathSegments : List Seg)
    (aggregate : List (String × JSValue)) : List (String × JSValue) :=
  match properties with
  | [] => aggregate
  | .spread :: rest =>
    extractStaticValueFromObjectExpression rest preservedKeys pathSegments aggregate
  | .prop computed key value :: rest =>
    match extractPropertyKey computed key with
    | none => extractStaticValueFromObjectExpression rest preservedKeys pathSegments aggregate
    | some k =>
      if isKeyPreserved k preservedKeys then
        extractStaticValueFromObjectExpression rest preservedKeys pathSegments
          (assocSet aggregate (jsKeyString k) (.ref (pathSegments ++ [k])))
      else
        match extractStaticValueFromExpression value preservedKeys (pathSegments ++ [k]) with
        | none =>
          extractStaticValueFromObjectExpression rest preservedKeys pathSegments aggregate
        | some extracted =>
          extractStaticValueFromObjectExpression rest preservedKeys pathSegments
            (assocSet aggregate (jsKeyString k) extracted)

end

/-- `extractStaticProps`: the root adapter; a non-static root or a non-object
root yields `null` (modelled `none`). -/
def extractStaticProps (propsNode : Expr) (preservedKeys : List String) :
    Option JSValue :=
  match extractStaticValueFromExpression propsNode preservedKeys [] with
  | none => none
  | some extracted => if isPlainObject extracted then some extracted else none

/-! ## Tree patcher (`patcher-object.ts`: `buildEstreeValue`,
`applyArrayElementPatchesIfNeeded`)

Patched values are encoded back into expression nodes; the array-element
visitor walks an ordered container's slots with their indices, applying
slot-level patches keyed by the canonical path string.  The
`expressionRefResolver` inlines preservation placeholders (`none` models a
placeholder the resolver cannot inline, which throws).
-/

mutual

/-- `buildEstreeValue`: inline `ExpressionRef` placeholders via the resolver
(throwing when one cannot be inlined), encode ordered containers with holes
as elisions, keyed containers as non-computed string-literal properties in
entry order, and leaves via the `valueToEstree` fallback (a literal node). -/
def buildEstreeValue (value : JSValue) (expressionRefResolver : List Seg → Option Expr) :
    Except String Expr :=
  match value with
  | .ref p =>
    match expressionRefResolver p with
    | some resolvedExpression => .ok resolvedExpression
    | none => .error ("[recma] Cannot inline ExpressionRef at path \"" ++
        String.intercalate "." (p.map jsKeyString) ++ "\".")
  | .arr elems => (buildEstreeElems elems expressionRefResolver).map Expr.array
  | .obj entries => (buildEstreeProps entries expressionRefResolver).map Expr.object
  | v => .ok (.lit v)

/-- Ordered-container slots of `buildEstreeValue`: an elision stays a hole. -/
def buildEstreeElems : List (Option JSValue) → (List Seg → Option Expr) →
    Except String (List ArrElem)
  | [], _ => .ok []
  | none :: rest, expressionRefResolver =>
    (buildEstreeElems rest expressionRefResolver).map (fun es => ArrElem.hole :: es)
  | some v :: rest, expressionRefResolver =>
    match buildEstreeValue v expressionRefResolver with
    | .error e => .error e
    | .ok ev =>
      (buildEstreeElems rest expressionRefResolver).map (fun es => ArrElem.elem ev :: es)

/-- Keyed-container entries of `buildEstreeValue`: non-computed
string-literal keys, values encoded recursively. -/
def buildEstreeProps : List (String × JSValue) → (List Seg → Option Expr) →
    Except String (List ObjProp)
  | [], _ => .ok []
  | (key, child) :: rest, expressionRefResolver =>
    match buildEstreeValue child expressionRefResolver with
    | .error e => .error e
    | .ok ev =>
      (buildEstreeProps rest expressionRefResolver).map
        (fun ps => ObjProp.prop false (.lit (.str key)) ev :: ps)

end

/-- `Map.delete` on the serialized-path patch index. -/
def erasePathKey (m : List (String × JSValue)) (k : String) : List (String × JSValue) :=
  m.filter (fun e => !(e.1 == k))

/-- The canonical key of the index slot `i` under an ordered container's
logical path (`stringifyPropertyPath([...arrayPath, index])`). -/
def pathKeyAt (arrayPath : List Seg) (i : Nat) : String :=
  stringifyPropertyPath (arrayPath ++ [Seg.num (.fin (i : Int))])

/-- The slot loop of `applyArrayElementPatchesIfNeeded` (its preconditions —
the node exists and maps to a logical path — hold once `arrayPath` is
given).  Per slot: a pending delete clears the slot to a hole and is
consumed; otherwise a pending set replaces the element (or fills a hole)
with the encoded patch value and is consumed; otherwise the slot is kept.
The element list is rebuilt index-aligned — no shifting. -/
def applyArrayElementPatches (expressionRefResolver : List Seg → Option Expr)
    (arrayPath : List Seg) :
    List (Option Expr) → Nat → List String → List (String × JSValue) →
    Except String (List (Option Expr) × List String × List (String × JSValue))
  | [], _, deletePathKeys, setPatchByPathKey => .ok ([], deletePathKeys, setPatchByPathKey)
  | el :: rest, index, deletePathKeys, setPatchByPathKey =>
    if deletePathKeys.contains (pathKeyAt arrayPath index) then
      match applyArrayElementPatches expressionRefResolver arrayPath rest (index + 1)
          (deletePathKeys.erase (pathKeyAt arrayPath index)) setPatchByPathKey with
      | .error e => .error e
      | .ok (out, d2, s2) => .ok (none :: out, d2, s2)
    else
      match objLookup setPatchByPathKey (pathKeyAt arrayPath index) with
      | none =>
        match applyArrayElementPatches expressionRefResolver arrayPath rest (index + 1)
            deletePathKeys setPatchByPathKey with
        | .error e => .error e
        | .ok (out, d2, s2) => .ok (el :: out, d2, s2)
      | some patchValue =>
        match buildEstreeValue patchValue expressionRefResolver with
        | .error e => .error e
        | .ok newValue =>
          match applyArrayElementPatches expressionRefResolver arrayPath rest (index + 1)
              deletePathKeys
              (erasePathKey setPatchByPathKey (pathKeyAt arrayPath index)) with
          | .error e => .error e
          | .ok (out, d2, s2) => .ok (some newValue :: out, d2, s2)

/-! ### Injectivity machinery for the canonical key encoding

The JSON string encoding is shown injective by exhibiting a one-unit decoder
(`unescape`) that inverts `escapeChar`, from which cancellation lemmas for
bodies, segments and whole arrays follow.
-/

/-- Numeric value of a lowercase hex digit character. -/
def hexVal (c : Char) : Nat :=
  if 87 ≤ c.toNat then c.toNat - 87 else c.toNat - 48

/-- Decoder for a single escape unit produced by `escapeChar`. -/
def unescape : List Char → Option (Char × List Char)
  | [] => none
  | c :: rest =>
    if c = '\\' then
      match rest with
      | [] => none
      | e :: rest2 =>
        if e = '"' then some ('"', rest2)
        else if e = '\\' then some ('\\', rest2)
        else if e = 'b' then some ('\x08', rest2)
        else if e = 't' then some ('\x09', rest2)
        else if e = 'n' then some ('\x0a', rest2)
        else if e = 'f' then some ('\x0c', rest2)
        else if e = 'r' then some ('\x0d', rest2)
        else if e = 'u' then
          match rest2 with
          | '0' :: '0' :: h1 :: h2 :: rest3 =>
              some (Char.ofNat (16 * hexVal h1 + hexVal h2), rest3)
          | _ => none
        else none
    else some (c, rest)

/-- Characters that may occur in the decimal encoding of an integer:
digits and the minus sign. -/
def numChar (c : Char) : Prop :=
  (48 ≤ c.toNat ∧ c.toNat ≤ 57) ∨ c.toNat = 45

instance : DecidablePred numChar := fun c => by
  unfold numChar
  infer_instance

/-- Tails that can legally follow one encoded segment inside the encoded
array: nothing, a comma separator, or the closing bracket. -/
def sepOK (z : List Char) : Prop :=
  ∀ h t, z = h :: t → h = ',' ∨ h = ']'

/-- The two-object store of the deterministic-ordering scenario:
address 0 holds `{a:1, b:2}`, address 1 holds `{b:3, c:4}`. -/
def orderingExampleStore : Store :=
  [(0, .obj [("a", .num (.fin 1)), ("b", .num (.fin 2))]),
   (1, .obj [("b", .num (.fin 3)), ("c", .num (.fin 4))])]

/-- Addresses of the store whose diagonal pair is not yet on the recursion
stack: the measure that bounds diagonal recursion depth. -/
def diagRemaining (σ : Store) (stack : List (StoreVal × StoreVal)) : Nat :=
  ((σ.map Prod.fst).filter
    (fun x => !isCycleDetected (storeWorld σ) stack (StoreVal.ref x) (StoreVal.ref x))).length

theorem hexVal_hexDigit : ∀ m < 16, hexVal (hexDigit m) = m := by decide

theorem unescape_u (n : Nat) (h : n < 32) (rest : List Char) :
    unescape ('\\' :: 'u' :: '0' :: '0' :: hexDigit (n / 16) :: hexDigit (n % 16) :: rest)
      = some (Char.ofNat n, rest) := by
  have hd : n / 16 < 16 := by omega
  have hm : n % 16 < 16 := by omega
  have step : unescape ('\\' :: 'u' :: '0' :: '0' :: hexDigit (n / 16) :: hexDigit (n % 16) :: rest)
      = some (Char.ofNat (16 * hexVal (hexDigit (n / 16)) + hexVal (hexDigit (n % 16))), rest) := by
    simp [unescape]
  rw [step, hexVal_hexDigit _ hd, hexVal_hexDigit _ hm, Nat.div_add_mod]

theorem unescape_plain (c : Char) (hc : c ≠ '\\') (rest : List Char) :
    unescape (c :: rest) = some (c, rest) := by
  simp [unescape, hc]

theorem unescape_escape (c : Char) (rest : List Char) :
    unescape (escapeChar c ++ rest) = some (c, rest) := by
  unfold escapeChar
  split
  · rfl
  · rfl
  · rfl
  · rfl
  · rfl
  · rfl
  · rfl
  · rename_i h1 h2 h3 h4 h5 h6 h7
    split
    · rename_i hlt
      simpa [Char.ofNat_toNat] using unescape_u c.toNat hlt rest
    · rename_i hge
      exact unescape_plain c (by simpa using h2) rest

theorem escapeChar_cancel {c d : Char} {x y : List Char}
    (h : escapeChar c ++ x = escapeChar d ++ y) : c = d ∧ x = y := by
  have h2 := congrArg unescape h
  rw [unescape_escape, unescape_escape] at h2
  injection h2 with h3
  injection h3 with h4 h5
  exact ⟨h4, h5⟩

theorem quote_ne_escape {d : Char} {x y : List Char}
    (h : '"' :: x = escapeChar d ++ y) : False := by
  have h2 := congrArg unescape h
  rw [unescape_escape] at h2
  rw [unescape_plain '"' (by decide) x] at h2
  injection h2 with h3
  injection h3 with h4 h5
  subst h4
  subst h5
  simp [escapeChar, escapePair] at h

theorem escBody_cancel : ∀ (a : List Char) {b x y : List Char},
    escBody a ++ '"' :: x = escBody b ++ '"' :: y → a = b ∧ x = y := by
  intro a
  induction a with
  | nil =>
    intro b x y h
    cases b with
    | nil =>
      simp only [escBody, List.nil_append] at h
      injection h with _ h2
      exact ⟨rfl, h2⟩
    | cons d ds =>
      exfalso
      simp only [escBody, List.nil_append, List.append_assoc] at h
      exact quote_ne_escape h
  | cons c cs ih =>
    intro b x y h
    cases b with
    | nil =>
      exfalso
      simp only [escBody, List.nil_append, List.append_assoc] at h
      exact quote_ne_escape h.symm
    | cons d ds =>
      simp only [escBody, List.append_assoc] at h
      obtain ⟨hc, ht⟩ := escapeChar_cancel h
      obtain ⟨hcs, hx⟩ := ih ht
      exact ⟨by rw [hc, hcs], hx⟩

theorem digitChar10_toNat : ∀ d < 10, (digitChar10 d).toNat = 48 + d := by decide

theorem natRepr_ne_nil (n : Nat) : natRepr n ≠ [] := by
  unfold natRepr
  split
  · simp
  · rename_i h
    have hd : Nat.digits 10 n ≠ [] := Nat.digits_ne_nil_iff_ne_zero.mpr h
    simp [hd]

theorem natRepr_digit {n : Nat} {c : Char} (hc : c ∈ natRepr n) :
    48 ≤ c.toNat ∧ c.toNat ≤ 57 := by
  unfold natRepr at hc
  split at hc
  · simp at hc
    subst hc
    decide
  · simp at hc
    obtain ⟨d, hd, hcd⟩ := hc
    have hlt : d < 10 := Nat.digits_lt_base (by norm_num) hd
    rw [← hcd, digitChar10_toNat d hlt]
    omega

theorem digitChar10_inj : ∀ d1 < 10, ∀ d2 < 10, digitChar10 d1 = digitChar10 d2 → d1 = d2 := by
  decide

theorem map_digitChar10_inj : ∀ (l1 : List Nat) {l2 : List Nat},
    (∀ d ∈ l1, d < 10) → (∀ d ∈ l2, d < 10) →
    l1.map digitChar10 = l2.map digitChar10 → l1 = l2 := by
  intro l1
  induction l1 with
  | nil =>
    intro l2 _ _ h
    cases l2 with
    | nil => rfl
    | cons d ds => simp at h
  | cons d ds ih =>
    intro l2 h1 h2 h
    cases l2 with
    | nil => simp at h
    | cons e es =>
      simp at h
      obtain ⟨hde, ht⟩ := h
      have := digitChar10_inj d (h1 d (by simp)) e (h2 e (by simp)) hde
      rw [this, ih (fun x hx => h1 x (by simp [hx])) (fun x hx => h2 x (by simp [hx])) ht]

theorem digits_map_ne_zeroChar {n : Nat} (hn : n ≠ 0) :
    (Nat.digits 10 n).map digitChar10 ≠ ['0'] := by
  intro h
  have hne : Nat.digits 10 n ≠ [] := Nat.digits_ne_nil_iff_ne_zero.mpr hn
  cases hd : Nat.digits 10 n with
  | nil => exact hne hd
  | cons d ds =>
    rw [hd] at h
    simp at h
    obtain ⟨hd0, hds⟩ := h
    have hlt : d < 10 := Nat.digits_lt_base (by norm_num) (by rw [hd]; simp)
    have hd0' : d = 0 := digitChar10_inj d hlt 0 (by norm_num) (by rw [hd0]; decide)
    have he : Nat.digits 10 n = [0] := by rw [hd, hds, hd0']
    have := congrArg (Nat.ofDigits 10) he
    rw [Nat.ofDigits_digits] at this
    simp [Nat.ofDigits] at this
    exact hn this

theorem natRepr_inj {m n : Nat} (h : natRepr m = natRepr n) : m = n := by
  unfold natRepr at h
  split at h <;> split at h
  · rename_i hm hn
    omega
  · rename_i hm hn
    exfalso
    have h2 := congrArg List.reverse h
    simp at h2
    exact digits_map_ne_zeroChar hn h2.symm
  · rename_i hm hn
    exfalso
    have h2 := congrArg List.reverse h
    simp at h2
    exact digits_map_ne_zeroChar hm h2
  · rename_i hm hn
    have h2 := congrArg List.reverse h
    simp at h2
    have hdm := map_digitChar10_inj (Nat.digits 10 m)
      (fun d hd => Nat.digits_lt_base (by norm_num) hd)
      (fun d hd => Nat.digits_lt_base (by norm_num) hd) h2
    have := congrArg (Nat.ofDigits 10) hdm
    rwa [Nat.ofDigits_digits, Nat.ofDigits_digits] at this


theorem intRepr_numChar {i : Int} {c : Char} (hc : c ∈ intRepr i) : numChar c := by
  unfold intRepr at hc
  split at hc
  · rcases List.mem_cons.mp hc with h | h
    · right; rw [h]; rfl
    · left; exact natRepr_digit h
  · left; exact natRepr_digit hc

theorem intRepr_ne_nil (i : Int) : intRepr i ≠ [] := by
  unfold intRepr
  split
  · simp
  · exact natRepr_ne_nil _

theorem intRepr_inj {i j : Int} (h : intRepr i = intRepr j) : i = j := by
  unfold intRepr at h
  split at h <;> split at h
  · rename_i hi hj
    injection h with _ h2
    have := natRepr_inj h2
    omega
  · rename_i hi hj
    exfalso
    cases hn : natRepr j.toNat with
    | nil => exact natRepr_ne_nil _ hn
    | cons c cs =>
      rw [hn] at h
      injection h with h1 _
      have hd : 48 ≤ c.toNat ∧ c.toNat ≤ 57 := natRepr_digit (by rw [hn]; simp)
      rw [← h1] at hd
      simp at hd
  · rename_i hi hj
    exfalso
    cases hn : natRepr i.toNat with
    | nil => exact natRepr_ne_nil _ hn
    | cons c cs =>
      rw [hn] at h
      injection h with h1 _
      have hd : 48 ≤ c.toNat ∧ c.toNat ≤ 57 := natRepr_digit (by rw [hn]; simp)
      rw [h1] at hd
      simp at hd
  · rename_i hi hj
    have := natRepr_inj h
    omega

/-- Append-cancellation for words made only of characters satisfying `P`,
terminated by a character that does not satisfy `P` (or by the end of the
input). -/
theorem word_cancel {P : Char → Prop} :
    ∀ (u : List Char) {v x y : List Char}, u ++ x = v ++ y →
      (∀ c ∈ u, P c) → (∀ c ∈ v, P c) →
      (∀ h t, x = h :: t → ¬P h) → (∀ h t, y = h :: t → ¬P h) →
      u = v ∧ x = y := by
  intro u
  induction u with
  | nil =>
    intro v x y h hu hv hx hy
    cases v with
    | nil => simpa using h
    | cons d ds =>
      exfalso
      simp at h
      exact hx d (ds ++ y) h (hv d (by simp))
  | cons c cs ih =>
    intro v x y h hu hv hx hy
    cases v with
    | nil =>
      exfalso
      simp at h
      exact hy c (cs ++ x) h.symm (hu c (by simp))
    | cons d ds =>
      simp at h
      obtain ⟨hcd, ht⟩ := h
      obtain ⟨h1, h2⟩ := ih ht (fun e he => hu e (by simp [he]))
        (fun e he => hv e (by simp [he])) hx hy
      exact ⟨by rw [hcd, h1], h2⟩

theorem not_numChar_comma : ¬numChar ',' := by decide

theorem not_numChar_rbracket : ¬numChar ']' := by decide

theorem not_numChar_quote : ¬numChar '"' := by decide

theorem seg_cancel : ∀ {a b : Seg} {x y : List Char}, goodSeg a → goodSeg b →
    jsonSegment a ++ x = jsonSegment b ++ y → sepOK x → sepOK y →
    a = b ∧ x = y := by
  intro a b x y ha hb h hx hy
  have hsep : ∀ (z : List Char), sepOK z → ∀ h t, z = h :: t → ¬numChar h := by
    intro z hz h t hzh hn
    rcases hz h t hzh with h1 | h1
    · rw [h1] at hn; exact not_numChar_comma hn
    · rw [h1] at hn; exact not_numChar_rbracket hn
  cases a with
  | str sa =>
    cases b with
    | str sb =>
      simp only [jsonSegment, List.cons_append, List.append_assoc] at h
      injection h with _ h2
      obtain ⟨hd, hx2⟩ := escBody_cancel sa.data (by simpa using h2)
      exact ⟨congrArg Seg.str (String.ext hd), hx2⟩
    | num nb =>
      cases nb with
      | fin ib =>
        exfalso
        cases hrep : intRepr ib with
        | nil => exact intRepr_ne_nil ib hrep
        | cons c cs =>
          simp only [jsonSegment, hrep, List.cons_append] at h
          injection h with h1 _
          have : numChar c := intRepr_numChar (by rw [hrep]; simp)
          rw [← h1] at this
          exact not_numChar_quote this
      | nan => exact absurd hb (by simp [goodSeg])
      | inf => exact absurd hb (by simp [goodSeg])
      | ninf => exact absurd hb (by simp [goodSeg])
  | num na =>
    cases na with
    | fin ia =>
      cases b with
      | str sb =>
        exfalso
        cases hrep : intRepr ia with
        | nil => exact intRepr_ne_nil ia hrep
        | cons c cs =>
          simp only [jsonSegment, hrep, List.cons_append] at h
          injection h with h1 _
          have : numChar c := intRepr_numChar (by rw [hrep]; simp)
          rw [h1] at this
          exact not_numChar_quote this
      | num nb =>
        cases nb with
        | fin ib =>
          have := @word_cancel numChar (intRepr ia) (intRepr ib) _ _ (by simpa [jsonSegment] using h)
            (fun c hc => intRepr_numChar hc) (fun c hc => intRepr_numChar hc)
            (hsep x hx) (hsep y hy)
          exact ⟨by rw [intRepr_inj this.1], this.2⟩
        | nan => exact absurd hb (by simp [goodSeg])
        | inf => exact absurd hb (by simp [goodSeg])
        | ninf => exact absurd hb (by simp [goodSeg])
    | nan => exact absurd ha (by simp [goodSeg])
    | inf => exact absurd ha (by simp [goodSeg])
    | ninf => exact absurd ha (by simp [goodSeg])

theorem jsonSegment_good_head {s : Seg} (hs : goodSeg s) :
    ∃ c cs, jsonSegment s = c :: cs ∧ ¬numChar ']' ∧ (c = '"' ∨ numChar c) := by
  cases s with
  | str t => exact ⟨'"', _, rfl, not_numChar_rbracket, Or.inl rfl⟩
  | num n =>
    cases n with
    | fin i =>
      cases hrep : intRepr i with
      | nil => exact absurd hrep (intRepr_ne_nil i)
      | cons c cs =>
        exact ⟨c, cs, by simp [jsonSegment, hrep], not_numChar_rbracket,
          Or.inr (intRepr_numChar (by rw [hrep]; simp))⟩
    | nan => exact absurd hs (by simp [goodSeg])
    | inf => exact absurd hs (by simp [goodSeg])
    | ninf => exact absurd hs (by simp [goodSeg])

theorem rbracket_ne_seg_head {s : Seg} (hs : goodSeg s) {z w : List Char}
    (h : ']' :: z = jsonSegment s ++ w) : False := by
  obtain ⟨c, cs, hc, _, hk⟩ := jsonSegment_good_head hs
  rw [hc] at h
  injection h with h1 _
  rcases hk with hk | hk
  · rw [hk] at h1; exact absurd h1 (by decide)
  · rw [← h1] at hk; exact not_numChar_rbracket hk

theorem arr_cancel : ∀ (p : List Seg) {q : List Seg},
    (∀ s ∈ p, goodSeg s) → (∀ s ∈ q, goodSeg s) →
    commaJoin (p.map jsonSegment) ++ [']'] = commaJoin (q.map jsonSegment) ++ [']'] →
    p = q := by
  intro p
  induction p with
  | nil =>
    intro q _ hq h
    cases q with
    | nil => rfl
    | cons t qs =>
      exfalso
      cases qs with
      | nil =>
        simp only [List.map, commaJoin, List.nil_append] at h
        exact rbracket_ne_seg_head (hq t (by simp)) h
      | cons t2 qs2 =>
        simp only [List.map, commaJoin, List.nil_append, List.append_assoc] at h
        exact rbracket_ne_seg_head (hq t (by simp)) h
  | cons s ps ih =>
    intro q hp hq h
    cases q with
    | nil =>
      exfalso
      cases ps with
      | nil =>
        simp only [List.map, commaJoin, List.nil_append] at h
        exact rbracket_ne_seg_head (hp s (by simp)) h.symm
      | cons s2 ps2 =>
        simp only [List.map, commaJoin, List.nil_append, List.append_assoc] at h
        exact rbracket_ne_seg_head (hp s (by simp)) h.symm
    | cons t qs =>
      have hform : ∀ (u : Seg) (us : List Seg),
          commaJoin ((u :: us).map jsonSegment) ++ [']'] =
            jsonSegment u ++ ((if us.isEmpty then [] else ',' :: commaJoin (us.map jsonSegment)) ++ [']']) := by
        intro u us
        cases us with
        | nil => simp [commaJoin]
        | cons v vs => simp [commaJoin]
      rw [hform s ps, hform t qs] at h
      have hsOK : ∀ (us : List Seg),
          sepOK ((if us.isEmpty then [] else ',' :: commaJoin (us.map jsonSegment)) ++ [']']) := by
        intro us
        cases us with
        | nil => intro h t hz; simp at hz; right; exact hz.1.symm
        | cons v vs => intro h t hz; simp at hz; left; exact hz.1.symm
      obtain ⟨hst, htails⟩ := seg_cancel (hp s (by simp)) (hq t (by simp)) h (hsOK ps) (hsOK qs)
      rw [hst]
      congr 1
      cases ps with
      | nil =>
        cases qs with
        | nil => rfl
        | cons v vs => simp at htails
      | cons u us =>
        cases qs with
        | nil => simp at htails
        | cons v vs =>
          simp only [List.isEmpty_cons, if_neg] at htails
          simp at htails
          exact ih (fun x hx => hp x (by simp [hx])) (fun x hx => hq x (by simp [hx]))
            (by simp only [List.map_cons, htails])

theorem canon_good {s : Seg} (hs : goodSeg s) :
    propertyPathSegmentCanonicalizer s = s := by
  cases s with
  | str t => rfl
  | num n =>
    cases n with
    | fin i => rfl
    | nan => exact absurd hs (by simp [goodSeg])
    | inf => exact absurd hs (by simp [goodSeg])
    | ninf => exact absurd hs (by simp [goodSeg])

/-- Injectivity of the canonical path key over logical paths built from
string segments and finite numeric segments. -/
theorem stringifyPropertyPath_inj {p q : List Seg}
    (hp : ∀ s ∈ p, goodSeg s) (hq : ∀ s ∈ q, goodSeg s)
    (h : stringifyPropertyPath p = stringifyPropertyPath q) : p = q := by
  unfold stringifyPropertyPath at h
  injection h with hdata
  injection hdata with _ h2
  have hcp : canonicalizePropertyPath p = p := by
    unfold canonicalizePropertyPath
    rw [List.map_congr_left (fun s hs => canon_good (hp s hs))]
    simp
  have hcq : canonicalizePropertyPath q = q := by
    unfold canonicalizePropertyPath
    rw [List.map_congr_left (fun s hs => canon_good (hq s hs))]
    simp
  rw [hcp, hcq] at h2
  exact arr_cancel p hp hq h2

/-- C1 (counterexample): the claim "stringifyPropertyPath maps every
non-finite numeric path segment (NaN, Infinity, and -Infinity) to a fixed
string token before JSON encoding, and the canonical keys are injective over
the logical-path domain including non-finite numbers and the string forms of
their tokens" is false on the code: the composed canonicalizer leaves
`-Infinity` untouched (the unary stage is commented out of the composition),
so `[-Infinity]` JSON-encodes as `"[null]"` rather than a string token, and
the path `[NaN]` collides with the distinct path `["NaN"]`. -/
theorem C1_counterexample :
    propertyPathSegmentCanonicalizer (Seg.num .ninf) = Seg.num .ninf ∧
    stringifyPropertyPath [Seg.num .ninf] = "[null]" ∧
    stringifyPropertyPath [Seg.num .nan] = stringifyPropertyPath [Seg.str "NaN"] ∧
    [Seg.num .nan] ≠ [Seg.str "NaN"] := by
  refine ⟨rfl, by decide, by decide, by decide⟩

/-- C1 (amended): `stringifyPropertyPath` maps the non-finite numeric
segments `NaN` and `Infinity` to the fixed string tokens `"NaN"` and
`"Infinity"` before JSON encoding, while `-Infinity` passes through the
composed canonicalizer unchanged (and therefore JSON-encodes as `null`);
the resulting canonical keys are injective over logical paths whose segments
are strings or finite numbers (`NaN`/`Infinity` segments alias with the
string forms of their tokens, so they are excluded from the injective
domain). -/
theorem C1_path_codec_amended :
    propertyPathSegmentCanonicalizer (Seg.num .nan) = Seg.str "NaN" ∧
    propertyPathSegmentCanonicalizer (Seg.num .inf) = Seg.str "Infinity" ∧
    propertyPathSegmentCanonicalizer (Seg.num .ninf) = Seg.num .ninf ∧
    ∀ (p q : List Seg), (∀ s ∈ p, goodSeg s) → (∀ s ∈ q, goodSeg s) →
      stringifyPropertyPath p = stringifyPropertyPath q → p = q := by
  exact ⟨rfl, rfl, rfl, fun p q hp hq h => stringifyPropertyPath_inj hp hq h⟩

/-- C1 (witness): the amended theorem applied at concrete paths. -/
theorem C1_path_codec_amended_witness :
    [Seg.str "items", Seg.num (.fin 3)] = [Seg.str "items", Seg.num (.fin 3)] :=
  C1_path_codec_amended.2.2.2 [Seg.str "items", Seg.num (.fin 3)]
    [Seg.str "items", Seg.num (.fin 3)] (by decide) (by decide) rfl

/-! ## C2: preserved-key patch rejection -/

theorem findRestrictedKey_rootOnly_none {p : PropertyPatch} {keys : List String} :
    findRestrictedKey p keys .rootOnly = none ↔
      ∀ s rest, p.path = Seg.str s :: rest → s ∉ keys := by
  unfold findRestrictedKey
  cases hp : p.path with
  | nil => simp
  | cons seg rest =>
    cases seg with
    | str s =>
      constructor
      · intro h s2 rest2 he hm
        injection he with h1 h2
        injection h1 with h1
        subst h1
        simp [hm] at h
      · intro h
        have := h s rest rfl
        simp [this]
    | num n => simp

/-- C2 (counterexample): a consolidated patch whose path contains the
preserved key `"children"` at depth 1 (not as the first segment) passes the
guard that `processComponent` actually runs (`scope: 'root-only'`) without
any error — even though the `anywhere` scope of `findRestrictedKey` would
have flagged it.  The claim, which demands rejection of preserved keys at any
depth, is therefore false on the code. -/
theorem C2_counterexample :
    processComponentPreservationGuard
      [PropertyPatch.set [Seg.str "items", Seg.str "children"] JSValue.null]
      ["children"] "Card" = .ok () ∧
    findRestrictedKey
      (PropertyPatch.set [Seg.str "items", Seg.str "children"] JSValue.null)
      ["children"] CheckScope.anywhere = some "children" :=
  ⟨rfl, rfl⟩

/-- C2 (amended): for every consolidated patch list, the guard invoked by
`processComponent` (root-only scope) throws exactly when some patch's path
has a *first* segment that is a string naming a preserved key; a patch list
with no such patch passes the guard without error, even if preserved keys
occur at deeper path positions. -/
theorem C2_preserved_key_guard_amended :
    ∀ (patches : List PropertyPatch) (keys : List String) (name : String),
      processComponentPreservationGuard patches keys name = .ok () ↔
        ∀ p ∈ patches, ∀ s rest, p.path = Seg.str s :: rest → s ∉ keys := by
  intro patches keys name
  unfold processComponentPreservationGuard
  induction patches with
  | nil => simp [assertPatchesRespectPreservation]
  | cons p ps ih =>
    unfold assertPatchesRespectPreservation
    cases hf : findRestrictedKey p keys (⟨CheckScope.rootOnly, "preserved"⟩ :
        PreservationCheckOptions).scope with
    | none =>
      simp only []
      rw [ih]
      constructor
      · intro h q hq
        rcases List.mem_cons.mp hq with hq | hq
        · subst hq
          exact findRestrictedKey_rootOnly_none.mp hf
        · exact h q hq
      · intro h q hq
        exact h q (by simp [hq])
    | some k =>
      simp only []
      constructor
      · intro h
        exact absurd h (by simp)
      · intro h
        exfalso
        have : findRestrictedKey p keys .rootOnly = none :=
          findRestrictedKey_rootOnly_none.mpr (h p (by simp))
        rw [this] at hf
        exact Option.noConfusion hf

/-! ## C9: validator error contract -/

/-- C9: `validateWithSchema` throws exactly when (a) a provided schema lacks
`'~standard'`, (b) the schema's validate function returns a `Promise`, or
(c) the validation result contains at least one issue — in which case the
thrown message carries the first issue's path and message; otherwise it
returns without throwing: the decoded value if the result carries one, and
the input when no schema or no value is provided. -/
theorem C9_validator_error_contract :
    (∀ input name, validateWithSchema none input name = .ok input) ∧
    (∀ (s : ComponentSchemaObj) input name, s.standard = none →
      validateWithSchema (some s) input name =
        .error ("The schema for \"" ++ name ++
          "\" is invalid. Expected an object with the \"~standard\" property (e.g. Zod, Valibot), but received a plain object.")) ∧
    (∀ (s : ComponentSchemaObj) (std : StandardSchemaNode) input name,
      s.standard = some std → std.validate input = .promise →
      validateWithSchema (some s) input name =
        .error ("Async schema validation is not supported for \"" ++ name ++ "\".")) ∧
    (∀ (s : ComponentSchemaObj) (std : StandardSchemaNode) input name issues value
        (firstIssue : StandardIssue) rest,
      s.standard = some std → std.validate input = .result issues value →
      issues.getD [] = firstIssue :: rest →
      validateWithSchema (some s) input name =
        .error ("Invalid props for \"" ++ name ++ "\" at \"" ++
          issuePathLabel firstIssue ++ "\": " ++ firstIssue.message)) ∧
    (∀ (s : ComponentSchemaObj) (std : StandardSchemaNode) input name issues value,
      s.standard = some std → std.validate input = .result issues value →
      issues.getD [] = [] →
      validateWithSchema (some s) input name = .ok (value.getD input)) := by
  refine ⟨fun input name => rfl, ?_, ?_, ?_, ?_⟩
  · intro s input name hs
    simp [validateWithSchema, hs]
  · intro s std input name hs hv
    simp [validateWithSchema, hs, hv]
  · intro s std input name issues value firstIssue rest hs hv hi
    simp [validateWithSchema, hs, hv, hi]
  · intro s std input name issues value hs hv hi
    cases value with
    | none => simp [validateWithSchema, hs, hv, hi]
    | some v => simp [validateWithSchema, hs, hv, hi]

/-- C9 (witness): the contract applied at concrete inputs — a schema object
lacking `'~standard'` throws the configuration error. -/
theorem C9_validator_error_contract_witness :
    validateWithSchema (some ⟨none⟩) JSValue.null "Card" =
      .error ("The schema for \"Card\" is invalid. Expected an object with the \"~standard\" property (e.g. Zod, Valibot), but received a plain object.") :=
  C9_validator_error_contract.2.1 ⟨none⟩ JSValue.null "Card" rfl

/-! ## C6: overlay fixed topology -/

theorem objHasOwn_iff : ∀ (l : List (String × JSValue)) (k : String),
    objHasOwn l k = true ↔ k ∈ l.map Prod.fst := by
  intro l k
  induction l with
  | nil => simp [objHasOwn]
  | cons e rest ih =>
    obtain ⟨k1, v1⟩ := e
    by_cases hk : k1 = k
    · subst hk
      simp [objHasOwn, List.any_cons]
    · have h2 : objHasOwn ((k1, v1) :: rest) k = objHasOwn rest k := by
        simp [objHasOwn, List.any_cons, hk]
      rw [h2, ih]
      simp [Ne.symm hk]

theorem assocSet_keys_mem : ∀ (l : List (String × JSValue)) (k : String) (v : JSValue),
    k ∈ l.map Prod.fst → (assocSet l k v).map Prod.fst = l.map Prod.fst := by
  intro l k v
  induction l with
  | nil => intro h; simp at h
  | cons e rest ih =>
    intro h
    obtain ⟨k1, v1⟩ := e
    by_cases hk : k1 = k
    · simp [assocSet, hk]
    · rw [List.map_cons] at h
      rcases List.mem_cons.mp h with h1 | h1
      · exact absurd h1.symm hk
      · simp [assocSet, hk, ih h1]

theorem overlayObjectGo_keys :
    ∀ (overlay : List (String × JSValue)) (base : List (String × JSValue))
      (P : List String) (acc : List (String × JSValue)),
      acc.map Prod.fst = base.map Prod.fst →
      (overlayObjectGo base overlay P acc).map Prod.fst = base.map Prod.fst := by
  intro overlay
  induction overlay with
  | nil =>
    intro base P acc h
    simpa [overlayObjectGo] using h
  | cons e rest ih =>
    intro base P acc h
    obtain ⟨candidateKey, overlayPropValue⟩ := e
    unfold overlayObjectGo
    split
    · exact ih base P acc h
    · split
      · exact ih base P acc h
      · rename_i hown
        split
        · exact ih base P acc h
        · have hmem : candidateKey ∈ acc.map Prod.fst := by
            rw [h]
            exact (objHasOwn_iff base candidateKey).mp (by simpa using hown)
          apply ih
          rw [assocSet_keys_mem acc candidateKey _ hmem, h]

theorem objLookup_assocSet_ne {l : List (String × JSValue)} {k k2 : String}
    {v : JSValue} (h : k ≠ k2) : objLookup (assocSet l k v) k2 = objLookup l k2 := by
  induction l with
  | nil => simp [assocSet, objLookup, h]
  | cons e rest ih =>
    obtain ⟨k1, v1⟩ := e
    by_cases hk : k1 = k
    · subst hk
      simp [assocSet, objLookup, h]
    · simp [assocSet, hk, objLookup, ih]

theorem overlayObjectGo_lookup_not_mem :
    ∀ (overlay : List (String × JSValue)) (base : List (String × JSValue))
      (P : List String) (acc : List (String × JSValue)) (k : String),
      k ∉ overlay.map Prod.fst →
      objLookup (overlayObjectGo base overlay P acc) k = objLookup acc k := by
  intro overlay
  induction overlay with
  | nil =>
    intro base P acc k _
    simp [overlayObjectGo]
  | cons e rest ih =>
    intro base P acc k hk
    obtain ⟨candidateKey, overlayPropValue⟩ := e
    rw [List.map_cons] at hk
    have hk1 : k ≠ candidateKey := fun he => hk (he ▸ List.mem_cons_self _ _)
    have hk2 : k ∉ rest.map Prod.fst := fun hm => hk (List.mem_cons_of_mem _ hm)
    unfold overlayObjectGo
    split
    · exact ih base P acc k hk2
    · split
      · exact ih base P acc k hk2
      · split
        · exact ih base P acc k hk2
        · rw [ih base P _ k hk2]
          exact objLookup_assocSet_ne (fun he => hk1 he.symm)

/-- C6: `applyOverlay` keeps the base's topology: the result's key list (in
enumeration order) equals the base's, so keys present only in the overlay are
never added; a key of the base absent from the overlay keeps the base's value
unchanged; and in particular
`applyOverlay {label:"x", extra:"y"} {label:"x"}` is `{label:"x", extra:"y"}`. -/
theorem C6_overlay_fixed_topology :
    (∀ (base overlay : List (String × JSValue)) (P : List String),
      (applyOverlay base overlay P).map Prod.fst = base.map Prod.fst) ∧
    (∀ (base overlay : List (String × JSValue)) (P : List String) (k : String),
      k ∉ overlay.map Prod.fst →
      objLookup (applyOverlay base overlay P) k = objLookup base k) ∧
    applyOverlay [("label", .str "x"), ("extra", .str "y")] [("label", .str "x")] []
      = [("label", .str "x"), ("extra", .str "y")] := by
  refine ⟨?_, ?_, ?_⟩
  · intro base overlay P
    unfold applyOverlay
    split
    · rfl
    · unfold overlayObject
      exact overlayObjectGo_keys overlay base P base rfl
  · intro base overlay P k hk
    unfold applyOverlay
    split
    · rfl
    · unfold overlayObject
      exact overlayObjectGo_lookup_not_mem overlay base P base k hk
  · simp [applyOverlay, overlayObject, overlayObjectGo, overlayValue, jsEq, jsEqEntries,
      isKeyPreserved, jsKeyString, objHasOwn, objLookup, assocSet]

/-- C6 (witness): the passthrough key `"extra"`, absent from the overlay,
reads the base's value after the merge. -/
theorem C6_overlay_fixed_topology_witness :
    objLookup (applyOverlay [("label", JSValue.str "x"), ("extra", JSValue.str "y")]
      [("label", JSValue.str "x")] []) "extra" = objLookup [("label", JSValue.str "x"), ("extra", JSValue.str "y")] "extra" :=
  C6_overlay_fixed_topology.2.1 [("label", JSValue.str "x"), ("extra", JSValue.str "y")]
    [("label", JSValue.str "x")] [] "extra" (by decide)

/-! ## C7: patch planner coercion filtering -/

/-- C7: `calculatePatches` degrades to the empty patch list (without error)
when either root input is not a plain keyed container; its diff-resolution
loop turns exactly the CHANGE events into `set` patches and discards every
CREATE and REMOVE event; and on plain-object roots its output is exactly
that translation of the diff between the extracted data and the overlay
target. -/
theorem C7_planner_coercion_filtering :
    (∀ (fuel : Nat) (e v : JSValue) (P : List String),
      (isPlainObject e && isPlainObject v) = false →
      calculatePatchesF fuel e v P = some []) ∧
    (∀ (events : List (DiffEvent JSValue)),
      collectCoercionPatches events = events.filterMap changeToSetPatch) ∧
    (∀ (fuel : Nat) (ee ve : List (String × JSValue)) (P : List String)
        (d : List (DiffEvent JSValue)),
      diffTree fuel (.obj ee) (.obj (applyOverlay ee ve P)) coercionDiffOptions = some d →
      calculatePatchesF fuel (.obj ee) (.obj ve) P = some (d.filterMap changeToSetPatch)) := by
  have hcollect : ∀ (events : List (DiffEvent JSValue)),
      collectCoercionPatches events = events.filterMap changeToSetPatch := by
    intro events
    induction events with
    | nil => rfl
    | cons e rest ih =>
      cases e with
      | create p v => simp [collectCoercionPatches, changeToSetPatch, ih]
      | remove p v => simp [collectCoercionPatches, changeToSetPatch, ih]
      | change p v o => simp [collectCoercionPatches, changeToSetPatch, ih]
  refine ⟨?_, hcollect, ?_⟩
  · intro fuel e v P h
    unfold calculatePatchesF
    rw [h]
    simp
  · intro fuel ee ve P d hdiff
    unfold calculatePatchesF
    simp only [isPlainObject, Bool.and_self, Bool.not_true, Bool.false_eq_true, if_false]
    rw [hdiff]
    simp only [hcollect]

/-- C7 (witness): a non-plain-object root degrades to the empty patch
list. -/
theorem C7_planner_coercion_filtering_witness :
    calculatePatchesF 1 (JSValue.str "x") JSValue.null [] = some [] :=
  C7_planner_coercion_filtering.1 1 (JSValue.str "x") JSValue.null [] rfl

/-! ## C5: differ ordering determinism -/

theorem phase1_path_ge_one {V : Type} {W : DiffWorld V} {options : DiffOptions}
    {prevC curC : V} {stack : List (V × V)}
    {child : V → V → List (V × V) → Option (List (DiffEvent V))} :
    ∀ {keys : List Seg} {l : List (DiffEvent V)},
      phase1 W options prevC curC stack child keys = some l →
      ∀ e ∈ l, 1 ≤ e.path.length := by
  intro keys
  induction keys with
  | nil =>
    intro l h e he
    simp [phase1] at h
    subst h
    simp at he
  | cons key restKeys ih =>
    intro l h e he
    unfold phase1 at h
    split at h
    · exact ih h e he
    · split at h
      · cases hrest : phase1 W options prevC curC stack child restKeys with
        | none => rw [hrest] at h; simp at h
        | some rest =>
          rw [hrest] at h
          simp at h
          subst h
          rcases List.mem_cons.mp he with he1 | he1
          · subst he1; simp [DiffEvent.path]
          · exact ih hrest e he1
      · split at h
        · split at h
          · exact ih h e he
          · split at h
            · split at h
              · simp at h
              · rename_i childDiffs heq
                cases hrest : phase1 W options prevC curC stack child restKeys with
                | none => rw [hrest] at h; simp at h
                | some rest =>
                  rw [hrest] at h
                  simp at h
                  subst h
                  rcases List.mem_append.mp he with he1 | he1
                  · obtain ⟨e0, _, he0⟩ := List.mem_map.mp he1
                    subst he0
                    cases e0 <;> simp [DiffEvent.prepend, DiffEvent.path]
                  · exact ih hrest e he1
            · split at h
              · rename_i ev hleaf
                cases hrest : phase1 W options prevC curC stack child restKeys with
                | none => rw [hrest] at h; simp at h
                | some rest =>
                  rw [hrest] at h
                  simp at h
                  subst h
                  rcases List.mem_cons.mp he with he1 | he1
                  · subst he1
                    unfold leafChange at hleaf
                    split at hleaf
                    · injection hleaf with hleaf
                      subst hleaf
                      simp [DiffEvent.path]
                    · exact Option.noConfusion hleaf
                  · exact ih hrest e he1
              · exact ih h e he
        · split at h
          · rename_i ev hleaf
            cases hrest : phase1 W options prevC curC stack child restKeys with
            | none => rw [hrest] at h; simp at h
            | some rest =>
              rw [hrest] at h
              simp at h
              subst h
              rcases List.mem_cons.mp he with he1 | he1
              · subst he1
                unfold leafChange at hleaf
                split at hleaf
                · injection hleaf with hleaf
                  subst hleaf
                  simp [DiffEvent.path]
                · exact Option.noConfusion hleaf
              · exact ih hrest e he1
          · exact ih h e he

theorem phase2_events {V : Type} {W : DiffWorld V} {options : DiffOptions}
    {prevC curC : V} :
    ∀ e ∈ phase2 W options prevC curC, e.isCreate ∧ e.path.length = 1 := by
  intro e he
  unfold phase2 at he
  obtain ⟨key, _, hmk⟩ := List.mem_filterMap.mp he
  split at hmk
  · exact Option.noConfusion hmk
  · split at hmk
    · injection hmk with hmk
      subst hmk
      exact ⟨trivial, rfl⟩
    · exact Option.noConfusion hmk

theorem checkArrayStrategy_no_create {V : Type} {W : DiffWorld V}
    {options : DiffOptions} {p c : V} :
    ∀ e ∈ (checkArrayStrategy W options p c).2, ¬e.isCreate := by
  intro e he
  unfold checkArrayStrategy at he
  split at he
  · simp at he
  · split at he
    · simp at he
    · rw [List.mem_singleton.mp he]
      simp [DiffEvent.isCreate]
  · simp at he

theorem compareF_create_path_ge_one {V : Type} {W : DiffWorld V} :
    ∀ {fuel : Nat} {p c : V} {options : DiffOptions} {stack : List (V × V)}
      {l : List (DiffEvent V)},
      compareF W fuel p c options stack = some l →
      ∀ e ∈ l, e.isCreate → 1 ≤ e.path.length := by
  intro fuel p c options stack l h e he hcr
  cases fuel with
  | zero => simp [compareF] at h
  | succ fuel =>
    unfold compareF at h
    have hchildren : ∀ (l2 : List (DiffEvent V)),
        compareChildren W options p c stack
          (fun p2 c2 st => compareF W fuel p2 c2 options st) = some l2 →
        e ∈ l2 → 1 ≤ e.path.length := by
      intro l2 h2 he2
      unfold compareChildren at h2
      cases hp1 : phase1 W options p c stack
          (fun p2 c2 st => compareF W fuel p2 c2 options st) (W.keys p) with
      | none => rw [hp1] at h2; exact Option.noConfusion h2
      | some l1 =>
        rw [hp1] at h2
        injection h2 with h2
        subst h2
        rcases List.mem_append.mp he2 with h3 | h3
        · exact phase1_path_ge_one hp1 e h3
        · have := (phase2_events e h3).2
          omega
    split at h
    · split at h
      · injection h with h
        subst h
        exact absurd hcr (checkArrayStrategy_no_create e he)
      · exact hchildren l h he
    · exact hchildren l h he

theorem phase1_create_path_ge_two {V : Type} {W : DiffWorld V} {options : DiffOptions}
    {prevC curC : V} {stack : List (V × V)}
    {child : V → V → List (V × V) → Option (List (DiffEvent V))}
    (hchild : ∀ p c st l, child p c st = some l →
      ∀ e ∈ l, e.isCreate → 1 ≤ e.path.length) :
    ∀ {keys : List Seg} {l : List (DiffEvent V)},
      phase1 W options prevC curC stack child keys = some l →
      ∀ e ∈ l, e.isCreate → 2 ≤ e.path.length := by
  intro keys
  induction keys with
  | nil =>
    intro l h e he _
    simp [phase1] at h
    subst h
    simp at he
  | cons key restKeys ih =>
    intro l h e he hcr
    unfold phase1 at h
    split at h
    · exact ih h e he hcr
    · split at h
      · cases hrest : phase1 W options prevC curC stack child restKeys with
        | none => rw [hrest] at h; simp at h
        | some rest =>
          rw [hrest] at h
          simp at h
          subst h
          rcases List.mem_cons.mp he with he1 | he1
          · subst he1; simp [DiffEvent.isCreate] at hcr
          · exact ih hrest e he1 hcr
      · split at h
        · split at h
          · exact ih h e he hcr
          · split at h
            · split at h
              · simp at h
              · rename_i childDiffs heq
                cases hrest : phase1 W options prevC curC stack child restKeys with
                | none => rw [hrest] at h; simp at h
                | some rest =>
                  rw [hrest] at h
                  simp at h
                  subst h
                  rcases List.mem_append.mp he with he1 | he1
                  · obtain ⟨e0, he0mem, he0⟩ := List.mem_map.mp he1
                    subst he0
                    have h1 : e0.isCreate := by
                      cases e0 <;> simp_all [DiffEvent.prepend, DiffEvent.isCreate]
                    have := hchild _ _ _ _ heq e0 he0mem h1
                    cases e0 <;> simp_all [DiffEvent.prepend, DiffEvent.path]
                  · exact ih hrest e he1 hcr
            · split at h
              · rename_i ev hleaf
                cases hrest : phase1 W options prevC curC stack child restKeys with
                | none => rw [hrest] at h; simp at h
                | some rest =>
                  rw [hrest] at h
                  simp at h
                  subst h
                  rcases List.mem_cons.mp he with he1 | he1
                  · subst he1
                    unfold leafChange at hleaf
                    split at hleaf
                    · injection hleaf with hleaf
                      subst hleaf
                      simp [DiffEvent.isCreate] at hcr
                    · exact Option.noConfusion hleaf
                  · exact ih hrest e he1 hcr
              · exact ih h e he hcr
        · split at h
          · rename_i ev hleaf
            cases hrest : phase1 W options prevC curC stack child restKeys with
            | none => rw [hrest] at h; simp at h
            | some rest =>
              rw [hrest] at h
              simp at h
              subst h
              rcases List.mem_cons.mp he with he1 | he1
              · subst he1
                unfold leafChange at hleaf
                split at hleaf
                · injection hleaf with hleaf
                  subst hleaf
                  simp [DiffEvent.isCreate] at hcr
                · exact Option.noConfusion hleaf
              · exact ih hrest e he1 hcr
          · exact ih h e he hcr

/-- C5: `diff({a:1,b:2}, {b:3,c:4})` returns exactly
`[REMOVE ['a'] 1, CHANGE ['b'] 2→3, CREATE ['c'] 4]` in that order; and in
general every `compareChildren` result splits as the phase-1 events (whose
CREATEs all live at strictly deeper levels, path length ≥ 2) followed by the
phase-2 events — exactly the CREATEs of this container level, each with a
one-segment path — so within one level REMOVE/CHANGE events precede every
CREATE of that level. -/
theorem C5_differ_ordering_determinism :
    diffStore orderingExampleStore 1 (.ref 0) (.ref 1) {} =
      some [.remove [Seg.str "a"] (.num (.fin 1)),
            .change [Seg.str "b"] (.num (.fin 3)) (.num (.fin 2)),
            .create [Seg.str "c"] (.num (.fin 4))] ∧
    ∀ (V : Type) (W : DiffWorld V) (options : DiffOptions) (prevC curC : V)
      (stack : List (V × V)) (fuel : Nat) (l : List (DiffEvent V)),
      compareChildren W options prevC curC stack
        (fun p c st => compareF W fuel p c options st) = some l →
      ∃ l1 l2, l = l1 ++ l2 ∧
        l2 = phase2 W options prevC curC ∧
        (∀ e ∈ l1, e.isCreate → 2 ≤ e.path.length) ∧
        (∀ e ∈ l2, e.isCreate ∧ e.path.length = 1) := by
  constructor
  · decide
  · intro V W options prevC curC stack fuel l h
    unfold compareChildren at h
    cases hp1 : phase1 W options prevC curC stack
        (fun p c st => compareF W fuel p c options st) (W.keys prevC) with
    | none => rw [hp1] at h; exact Option.noConfusion h
    | some l1 =>
      rw [hp1] at h
      injection h with h
      subst h
      refine ⟨l1, phase2 W options prevC curC, rfl, rfl, ?_, phase2_events⟩
      intro e he hcr
      exact phase1_create_path_ge_two
        (fun p c st l2 h2 e2 he2 hc2 => compareF_create_path_ge_one h2 e2 he2 hc2)
        hp1 e he hcr

/-- C5 (witness): the general split applied at the concrete ordering
scenario. -/
theorem C5_differ_ordering_determinism_witness :
    ∃ l1 l2, ([DiffEvent.remove [Seg.str "a"] (StoreVal.num (.fin 1)),
               DiffEvent.change [Seg.str "b"] (StoreVal.num (.fin 3)) (StoreVal.num (.fin 2)),
               DiffEvent.create [Seg.str "c"] (StoreVal.num (.fin 4))] : List (DiffEvent StoreVal))
        = l1 ++ l2 ∧
      l2 = phase2 (storeWorld orderingExampleStore) (normalizeOptions {})
        (.ref 0) (.ref 1) ∧
      (∀ e ∈ l1, e.isCreate → 2 ≤ e.path.length) ∧
      (∀ e ∈ l2, e.isCreate ∧ e.path.length = 1) := by
  apply C5_differ_ordering_determinism.2 StoreVal (storeWorld orderingExampleStore)
    (normalizeOptions {}) (.ref 0) (.ref 1) [] 0
  have h := C5_differ_ordering_determinism.1
  unfold diffStore diffF compareF at h
  simpa using h

/-! ## C8: differ cycle safety -/

theorem lookupC_mem {σ : Store} {a : Nat} {d : ContainerData}
    (h : lookupC σ a = some d) : (a, d) ∈ σ := by
  induction σ with
  | nil => simp [lookupC] at h
  | cons e rest ih =>
    obtain ⟨a1, d1⟩ := e
    unfold lookupC at h
    split at h
    · rename_i heq
      injection h with h
      subst h
      subst heq
      simp
    · exact List.mem_cons_of_mem _ (ih h)

theorem lookupC_isSome_mem {σ : Store} {b : Nat}
    (h : (lookupC σ b).isSome) : b ∈ σ.map Prod.fst := by
  induction σ with
  | nil => simp [lookupC] at h
  | cons e rest ih =>
    obtain ⟨a1, d1⟩ := e
    unfold lookupC at h
    split at h
    · rename_i heq
      subst heq
      simp
    · exact List.mem_cons_of_mem _ (ih h)

theorem sObjLookup_mem {entries : List (String × StoreVal)} {s : String} {v : StoreVal}
    (h : sObjLookup entries s = some v) : (s, v) ∈ entries := by
  induction entries with
  | nil => simp [sObjLookup] at h
  | cons e rest ih =>
    obtain ⟨k1, v1⟩ := e
    unfold sObjLookup at h
    split at h
    · rename_i heq
      injection h with h
      subst h
      subst heq
      simp
    · exact List.mem_cons_of_mem _ (ih h)

theorem sArrRead_ref_mem {els : List (Option StoreVal)} {i : Nat} {c : Nat}
    (h : sArrRead els i = .ref c) : some (StoreVal.ref c) ∈ els := by
  unfold sArrRead at h
  cases hg : (els.get? i).bind id with
  | none => rw [hg] at h; exact absurd h (by simp)
  | some v =>
    rw [hg] at h
    simp at h
    subst h
    rcases Option.bind_eq_some.mp hg with ⟨ov, hov, hov2⟩
    have : ov = some (StoreVal.ref c) := by
      cases ov with
      | none => simp at hov2
      | some v2 => simpa using congrArg some hov2
    rw [← this]
    exact List.get?_mem hov

/-- A reference read out of a container's data is one of its `refAddrs`. -/
theorem getSafe_ref_mem {σ : Store} {a : Nat} {key : Seg} {c : Nat}
    (h : (storeWorld σ).getSafe (.ref a) key = .ref c) :
    c ∈ refAddrs (getC σ a) := by
  simp only [storeWorld] at h
  cases hd : getC σ a with
  | obj entries =>
    rw [hd] at h
    have hmem : ∀ {s : String}, (sObjLookup entries s).getD StoreVal.undef = .ref c →
        c ∈ refAddrs (ContainerData.obj entries) := by
      intro s hs
      cases hl : sObjLookup entries s with
      | none => rw [hl] at hs; simp at hs
      | some v =>
        rw [hl] at hs
        simp at hs
        subst hs
        unfold refAddrs
        apply List.mem_filterMap.mpr
        exact ⟨(s, .ref c), sObjLookup_mem hl, rfl⟩
    cases key with
    | str s =>
      exact hmem (show (sObjLookup entries s).getD StoreVal.undef = StoreVal.ref c from h)
    | num n =>
      cases n with
      | fin i =>
        exact hmem (show (sObjLookup entries (jsNumToString (JSNum.fin i))).getD StoreVal.undef
          = StoreVal.ref c from h)
      | nan =>
        exact hmem (show (sObjLookup entries (jsNumToString JSNum.nan)).getD StoreVal.undef
          = StoreVal.ref c from h)
      | inf =>
        exact hmem (show (sObjLookup entries (jsNumToString JSNum.inf)).getD StoreVal.undef
          = StoreVal.ref c from h)
      | ninf =>
        exact hmem (show (sObjLookup entries (jsNumToString JSNum.ninf)).getD StoreVal.undef
          = StoreVal.ref c from h)
  | arr els =>
    rw [hd] at h
    have hmem : ∀ {i : Nat}, sArrRead els i = .ref c →
        c ∈ refAddrs (ContainerData.arr els) := by
      intro i hi
      unfold refAddrs
      apply List.mem_filterMap.mpr
      exact ⟨some (.ref c), sArrRead_ref_mem hi, rfl⟩
    cases key with
    | str s =>
      have h2 : (match s.toNat? with
          | some i => sArrRead els i
          | none => StoreVal.undef) = StoreVal.ref c := h
      cases hn : s.toNat? with
      | none => rw [hn] at h2; simp at h2
      | some i =>
        rw [hn] at h2
        exact hmem h2
    | num n =>
      cases n with
      | fin i =>
        have h2 : (if 0 ≤ i then sArrRead els i.toNat else StoreVal.undef)
            = StoreVal.ref c := h
        split at h2
        · exact hmem h2
        · simp at h2
      | nan => exact absurd (show StoreVal.undef = StoreVal.ref c from h) (by simp)
      | inf => exact absurd (show StoreVal.undef = StoreVal.ref c from h) (by simp)
      | ninf => exact absurd (show StoreVal.undef = StoreVal.ref c from h) (by simp)
  | rich t cont =>
    rw [hd] at h
    cases key with
    | str s => exact absurd (show StoreVal.undef = StoreVal.ref c from h) (by simp)
    | num n =>
      cases n <;> exact absurd (show StoreVal.undef = StoreVal.ref c from h) (by simp)

/-- Every own key of container data passes the `in` check on that data. -/
theorem keyIn_of_mem_keys {σ : Store} {a : Nat} {key : Seg}
    (h : key ∈ containerKeysData (getC σ a)) :
    (storeWorld σ).keyIn key (.ref a) = true := by
  simp only [storeWorld]
  cases hd : getC σ a with
  | obj entries =>
    rw [hd] at h
    unfold containerKeysData at h
    obtain ⟨e, hmem, he⟩ := List.mem_map.mp h
    subst he
    simp only []
    apply List.any_eq_true.mpr
    exact ⟨e, hmem, by simp⟩
  | arr els =>
    rw [hd] at h
    unfold containerKeysData at h
    obtain ⟨i, hmem, hi⟩ := List.mem_filterMap.mp h
    split at hi
    · rename_i hsome
      injection hi with hi
      subst hi
      simp only []
      have hlt : i < els.length := List.mem_range.mp hmem
      have hs2 : els[i].isSome := by
        simpa [List.get?_eq_getElem?, List.getElem?_eq_getElem hlt] using hsome
      simp [hlt, hs2]
    · exact Option.noConfusion hi
  | rich t cont =>
    rw [hd] at h
    simp [containerKeysData] at h

/-- Phase 2 emits nothing on the diagonal. -/
theorem phase2_diag {σ : Store} {options : DiffOptions} {a : Nat} :
    phase2 (storeWorld σ) options (.ref a) (.ref a) = [] := by
  unfold phase2
  apply List.filterMap_eq_nil_iff.mpr
  intro key hkey
  have hin : (storeWorld σ).keyIn key (.ref a) = true := keyIn_of_mem_keys hkey
  split
  · rfl
  · rw [hin]
    simp

theorem isCycleDetected_append {V : Type} (W : DiffWorld V) (s1 s2 : List (V × V))
    (u v : V) :
    isCycleDetected W (s1 ++ s2) u v =
      (isCycleDetected W s1 u v || isCycleDetected W s2 u v) := by
  simp [isCycleDetected, List.any_append]

theorem length_filter_mono {α : Type} (p q : α → Bool)
    (himp : ∀ a, p a = true → q a = true) :
    ∀ l : List α, (l.filter p).length ≤ (l.filter q).length := by
  intro l
  induction l with
  | nil => simp
  | cons a rest ih =>
    simp only [List.filter_cons]
    by_cases hp : p a = true
    · rw [if_pos hp, if_pos (himp a hp)]
      simpa using ih
    · rw [if_neg hp]
      by_cases hq : q a = true
      · rw [if_pos hq]
        simp only [List.length_cons]
        exact Nat.le_succ_of_le ih
      · rw [if_neg hq]
        exact ih

theorem length_filter_lt {α : Type} (p q : α → Bool)
    (himp : ∀ a, p a = true → q a = true) (c : α)
    (hqc : q c = true) (hpc : p c = false) :
    ∀ l : List α, c ∈ l → (l.filter p).length < (l.filter q).length := by
  intro l
  induction l with
  | nil => intro h; simp at h
  | cons a rest ih =>
    intro hmem
    simp only [List.filter_cons]
    by_cases hac : a = c
    · subst hac
      rw [if_neg (by simp [hpc]), if_pos hqc]
      simp only [List.length_cons]
      exact Nat.lt_succ_of_le (length_filter_mono p q himp rest)
    · have hrest : c ∈ rest := by
        rcases List.mem_cons.mp hmem with h | h
        · exact absurd h.symm hac
        · exact h
      by_cases hp : p a = true
      · rw [if_pos hp, if_pos (himp a hp)]
        simpa using ih hrest
      · rw [if_neg hp]
        by_cases hq : q a = true
        · rw [if_pos hq]
          exact Nat.lt_succ_of_lt (ih hrest)
        · rw [if_neg hq]
          exact ih hrest

/-- Pushing a fresh diagonal pair strictly shrinks the set of store
addresses whose diagonal pair is still absent from the stack. -/
theorem diagRemaining_push_lt {σ : Store} {stack : List (StoreVal × StoreVal)} {c : Nat}
    (hc : c ∈ σ.map Prod.fst)
    (hcyc : isCycleDetected (storeWorld σ) stack (.ref c) (.ref c) = false) :
    diagRemaining σ (stack ++ [(StoreVal.ref c, StoreVal.ref c)]) <
      diagRemaining σ stack := by
  unfold diagRemaining
  refine length_filter_lt _ _ ?_ c ?_ ?_ (σ.map Prod.fst) hc
  · intro x hx
    simp only [isCycleDetected_append, Bool.not_eq_true', Bool.or_eq_false_iff] at hx
    simp [hx.1]
  · simp [hcyc]
  · have hnew : isCycleDetected (storeWorld σ) [(StoreVal.ref c, StoreVal.ref c)]
        (.ref c) (.ref c) = true := by
      simp [isCycleDetected, storeWorld]
    simp [isCycleDetected_append, hnew]

/-- On the diagonal, phase 1 emits nothing: every key is present on both
sides, every leaf is `Object.is`-equal to itself, and every nested container
pair is either a detected cycle (skipped) or diffs to nothing by the
`child` hypothesis. -/
theorem phase1_diag {σ : Store} {options : DiffOptions} {a : Nat}
    {stack : List (StoreVal × StoreVal)}
    {child : StoreVal → StoreVal → List (StoreVal × StoreVal) →
      Option (List (DiffEvent StoreVal))}
    (htrack : options.trackCircularReferences = true)
    (hchild : ∀ (key : Seg) (c : Nat),
      (storeWorld σ).getSafe (.ref a) key = .ref c →
      isCycleDetected (storeWorld σ) stack (.ref c) (.ref c) = false →
      child (.ref c) (.ref c)
        (pushCycleEntry options stack (.ref c) (.ref c)) = some []) :
    ∀ keys : List Seg, (∀ k ∈ keys, (storeWorld σ).keyIn k (.ref a) = true) →
      phase1 (storeWorld σ) options (.ref a) (.ref a) stack child keys = some [] := by
  intro keys
  induction keys with
  | nil => intro _; rfl
  | cons key rest ih =>
    intro hkeys
    have hkey : (storeWorld σ).keyIn key (.ref a) = true :=
      hkeys key (List.mem_cons_self key rest)
    have hrest : ∀ k ∈ rest, (storeWorld σ).keyIn k (.ref a) = true :=
      fun k hk => hkeys k (List.mem_cons_of_mem key hk)
    unfold phase1
    by_cases hskip :
        shouldSkipKey key ((storeWorld σ).isArray (.ref a)) options.keysToSkip = true
    · rw [if_pos hskip]
      exact ih hrest
    · rw [if_neg hskip, hkey]
      rw [if_neg (by simp)]
      by_cases hcont :
          (storeWorld σ).isContainer ((storeWorld σ).getSafe (.ref a) key) = true
      · have href : ∃ c, (storeWorld σ).getSafe (.ref a) key = .ref c := by
          cases h2 : (storeWorld σ).getSafe (.ref a) key
          case ref c => exact ⟨c, rfl⟩
          all_goals (rw [h2] at hcont; simp [storeWorld] at hcont)
        obtain ⟨c, hv⟩ := href
        rw [hv]
        rw [if_pos (by simp [storeWorld])]
        rw [htrack]
        simp only [Bool.true_and]
        by_cases hcyc : isCycleDetected (storeWorld σ) stack (.ref c) (.ref c) = true
        · rw [if_pos hcyc]
          exact ih hrest
        · rw [if_neg hcyc]
          have hcycf : isCycleDetected (storeWorld σ) stack (.ref c) (.ref c) = false := by
            simpa using hcyc
          by_cases hrich : (storeWorld σ).isRich (.ref c) = true
          · rw [if_neg (by simp [hrich])]
            have hleaf : leafChange (storeWorld σ) key (StoreVal.ref c)
                (StoreVal.ref c) = none := by
              simp [leafChange, storeWorld]
            rw [hleaf]
            exact ih hrest
          · have hrichf : (storeWorld σ).isRich (.ref c) = false := by simpa using hrich
            rw [if_pos (by simp [hrichf])]
            rw [hchild key c hv hcycf, ih hrest]
            simp
      · have hcontf :
            (storeWorld σ).isContainer ((storeWorld σ).getSafe (.ref a) key) = false := by
          simpa using hcont
        rw [if_neg (by simp [hcontf])]
        have hleaf : leafChange (storeWorld σ) key
            ((storeWorld σ).getSafe (.ref a) key)
            ((storeWorld σ).getSafe (.ref a) key) = none := by
          simp [leafChange, storeWorld]
        rw [hleaf]
        exact ih hrest

/-- The array strategies emit no diffs on a value diffed against itself
(reference equality holds, and so does shallow equality). -/
theorem checkArrayStrategy_diag {σ : Store} (options : DiffOptions) (v : StoreVal) :
    (checkArrayStrategy (storeWorld σ) options v v).2 = [] := by
  unfold checkArrayStrategy
  have hcomp : arrayComparator (storeWorld σ) options v v = true := by
    unfold arrayComparator
    cases heq : options.arrayEquality
    · simp [storeWorld]
    · simp [storeWorld]
  cases harr : options.arrays
  · rfl
  · simp [hcomp]
  · rfl

/-- With tracking on and enough fuel for the whole store plus one call,
comparing a reference with itself yields no diffs: the fuel consumed along
any branch is bounded by the number of store addresses not yet on the
recursion stack. -/
theorem compareF_diag {σ : Store} (hwf : WFStore σ) :
    ∀ (fuel : Nat) (options : DiffOptions) (stack : List (StoreVal × StoreVal)) (x : Nat),
      options.trackCircularReferences = true →
      diagRemaining σ stack + 1 ≤ fuel →
      compareF (storeWorld σ) fuel (.ref x) (.ref x) options stack = some [] := by
  intro fuel
  induction fuel with
  | zero =>
    intro options stack x _ hle
    omega
  | succ fuel ih =>
    intro options stack x htrack hle
    have hchildren :
        compareChildren (storeWorld σ) options (.ref x) (.ref x) stack
          (fun p c st => compareF (storeWorld σ) fuel p c options st) = some [] := by
      unfold compareChildren
      have h1 : phase1 (storeWorld σ) options (.ref x) (.ref x) stack
          (fun p c st => compareF (storeWorld σ) fuel p c options st)
          ((storeWorld σ).keys (.ref x)) = some [] := by
        apply phase1_diag htrack
        · intro key cc hv hcyc
          simp only [pushCycleEntry, htrack, if_true]
          apply ih options (stack ++ [(StoreVal.ref cc, StoreVal.ref cc)]) cc htrack
          have hmem : cc ∈ σ.map Prod.fst := by
            have hra := getSafe_ref_mem hv
            cases hl : lookupC σ x with
            | none =>
              rw [getC, hl] at hra
              simp [refAddrs] at hra
            | some d =>
              have hx : (x, d) ∈ σ := lookupC_mem hl
              have hs := hwf (x, d) hx cc (by rwa [getC, hl] at hra)
              exact lookupC_isSome_mem hs
          have hlt := diagRemaining_push_lt hmem hcyc
          omega
        · intro k hk
          apply keyIn_of_mem_keys
          simpa [storeWorld] using hk
      rw [h1]
      simp [phase2_diag]
    unfold compareF
    by_cases harr :
        ((storeWorld σ).isArray (.ref x) && (storeWorld σ).isArray (.ref x)) = true
    · rw [if_pos harr]
      by_cases hrec :
          (!(checkArrayStrategy (storeWorld σ) options (.ref x) (.ref x)).1) = true
      · rw [if_pos hrec]
        rw [checkArrayStrategy_diag]
      · rw [if_neg hrec]
        exact hchildren
    · rw [if_neg harr]
      exact hchildren

/-- C8: differ cycle safety.  Circular-reference tracking is on by default,
and diffing any stored container (including self- and mutually-referential
graphs, which `WFStore` admits) against itself with tracking enabled yields
the empty difference list; fuel covering one call per store address plus the
root call suffices, because re-encountering a diagonal pair already on the
recursion stack short-circuits without a further recursive call. -/
theorem C8_cycle_safety :
    (normalizeOptions {}).trackCircularReferences = true ∧
    ∀ (σ : Store) (a : Nat) (options : PartialDiffOptions) (fuel : Nat),
      (normalizeOptions options).trackCircularReferences = true →
      WFStore σ →
      σ.length + 1 ≤ fuel →
      diffStore σ fuel (.ref a) (.ref a) options = some [] := by
  constructor
  · rfl
  · intro σ a options fuel htrack hwf hfuel
    unfold diffStore diffF
    apply compareF_diag hwf fuel (normalizeOptions options) [] a htrack
    have h1 : diagRemaining σ [] ≤ σ.length := by
      unfold diagRemaining
      calc ((σ.map Prod.fst).filter _).length
          ≤ (σ.map Prod.fst).length := List.length_filter_le _ _
        _ = σ.length := List.length_map _ _
    omega

/-- The C8 statement at the canonical self-referential store
`{ self: <itself> }` with the minimal sufficient fuel. -/
theorem C8_cycle_safety_witness :
    diffStore [(0, ContainerData.obj [("self", StoreVal.ref 0)])] 2
      (.ref 0) (.ref 0) {} = some [] :=
  C8_cycle_safety.2 [(0, ContainerData.obj [("self", StoreVal.ref 0)])] 0 {} 2
    rfl (by unfold WFStore; decide) (by decide)

/-! ## C4 and C10: extractor container policies and duplicate-key shadowing -/

/-- A spread element anywhere rejects the whole ordered container. -/
theorem extractArr_spread (l1 l2 : List ArrElem) (pk : List String) (path : List Seg) :
    ∀ index,
      extractStaticValueFromArrayExpression (l1 ++ ArrElem.spread :: l2) pk path index
        = none := by
  induction l1 with
  | nil =>
    intro index
    simp [extractStaticValueFromArrayExpression]
  | cons a rest ih =>
    intro index
    cases a with
    | hole => simp [extractStaticValueFromArrayExpression, ih (index + 1)]
    | spread => simp [extractStaticValueFromArrayExpression]
    | elem e =>
      simp only [List.cons_append, extractStaticValueFromArrayExpression]
      cases hv : extractStaticValueFromExpression e pk (path ++ [Seg.num (.fin index)]) with
      | none => simp
      | some v => simp [ih (index + 1)]

/-- An element that fails static resolution (at its own index path) rejects
the whole ordered container. -/
theorem extractArr_elem_fail (e : Expr) (l2 : List ArrElem) (pk : List String)
    (path : List Seg) :
    ∀ (l1 : List ArrElem) (index : Nat),
      extractStaticValueFromExpression e pk
          (path ++ [Seg.num (.fin ((index + l1.length : Nat) : Int))]) = none →
      extractStaticValueFromArrayExpression (l1 ++ ArrElem.elem e :: l2) pk path index
        = none := by
  intro l1
  induction l1 with
  | nil =>
    intro index h
    simp only [List.length_nil, Nat.add_zero] at h
    simp [extractStaticValueFromArrayExpression, h]
  | cons a rest ih =>
    intro index h
    have h2 : extractStaticValueFromExpression e pk
        (path ++ [Seg.num (.fin (((index + 1) + rest.length : Nat) : Int))]) = none := by
      have hn : (index + 1) + rest.length = index + (a :: rest).length := by
        simp [List.length_cons]
        omega
      rw [hn]
      exact h
    cases a with
    | hole => simp [extractStaticValueFromArrayExpression, ih (index + 1) h2]
    | spread => simp [extractStaticValueFromArrayExpression]
    | elem e2 =>
      simp only [List.cons_append, extractStaticValueFromArrayExpression]
      cases hv : extractStaticValueFromExpression e2 pk (path ++ [Seg.num (.fin index)]) with
      | none => simp
      | some v => simp [ih (index + 1) h2]

/-- The resolver never accepts a keyed-container node. -/
theorem tryResolveStaticValue_object (props : List ObjProp) :
    tryResolveStaticValue (.object props) = none := by
  simp [tryResolveStaticValue, tryResolveLiteral, tryResolveIdentifier]

/-- A slot whose key is dynamic, or whose key is not preserved and whose
value fails static resolution, is processed exactly as if absent. -/
theorem extractObj_skip (computed : Bool) (key value : Expr) (pk : List String)
    (path : List Seg)
    (hbad : extractPropertyKey computed key = none ∨
      ∃ k, extractPropertyKey computed key = some k ∧
        isKeyPreserved k pk = false ∧
        extractStaticValueFromExpression value pk (path ++ [k]) = none) :
    ∀ (l1 l2 : List ObjProp) (agg : List (String × JSValue)),
      extractStaticValueFromObjectExpression
          (l1 ++ ObjProp.prop computed key value :: l2) pk path agg
        = extractStaticValueFromObjectExpression (l1 ++ l2) pk path agg := by
  intro l1
  induction l1 with
  | nil =>
    intro l2 agg
    rcases hbad with hk | ⟨k, hk, hpres, hval⟩
    · simp [extractStaticValueFromObjectExpression, hk]
    · simp [extractStaticValueFromObjectExpression, hk, hpres, hval]
  | cons p rest ih =>
    intro l2 agg
    cases p with
    | spread =>
      simp only [List.cons_append, extractStaticValueFromObjectExpression]
      exact ih l2 agg
    | prop c2 k2 v2 =>
      simp only [List.cons_append, extractStaticValueFromObjectExpression]
      cases hk2 : extractPropertyKey c2 k2 with
      | none => exact ih l2 agg
      | some kk =>
        by_cases hp : isKeyPreserved kk pk = true
        · simp only [hp, if_true]
          exact ih l2 _
        · have hpf : isKeyPreserved kk pk = false := by simpa using hp
          simp only [hpf, Bool.false_eq_true, if_false]
          cases hv2 : extractStaticValueFromExpression v2 pk (path ++ [kk]) with
          | none => exact ih l2 agg
          | some ev => exact ih l2 _

/-- C4 (amended): extractor container policies.  Ordered containers are
strict — a spread element or an element failing static resolution rejects
the entire container; keyed containers are partial and total — extraction
always yields a keyed container (never the non-static signal), a slot whose
key is dynamic, or whose key is not preserved and whose value fails static
resolution, is silently omitted while sibling slots are processed
unchanged; a slot whose key is preserved is kept as an `ExpressionRef`
placeholder even when its value fails static resolution. -/
theorem C4_extractor_container_policies_amended :
    (∀ (l1 l2 : List ArrElem) (pk : List String) (path : List Seg) (index : Nat),
      extractStaticValueFromArrayExpression (l1 ++ ArrElem.spread :: l2) pk path index
        = none) ∧
    (∀ (l1 : List ArrElem) (e : Expr) (l2 : List ArrElem) (pk : List String)
        (path : List Seg) (index : Nat),
      extractStaticValueFromExpression e pk
          (path ++ [Seg.num (.fin ((index + l1.length : Nat) : Int))]) = none →
      extractStaticValueFromArrayExpression (l1 ++ ArrElem.elem e :: l2) pk path index
        = none) ∧
    (∀ (properties : List ObjProp) (pk : List String) (path : List Seg),
      extractStaticValueFromExpression (.object properties) pk path
        = some (.obj (extractStaticValueFromObjectExpression properties pk path []))) ∧
    (∀ (l1 : List ObjProp) (computed : Bool) (key value : Expr) (l2 : List ObjProp)
        (pk : List String) (path : List Seg) (agg : List (String × JSValue)),
      (extractPropertyKey computed key = none ∨
        ∃ k, extractPropertyKey computed key = some k ∧
          isKeyPreserved k pk = false ∧
          extractStaticValueFromExpression value pk (path ++ [k]) = none) →
      extractStaticValueFromObjectExpression
          (l1 ++ ObjProp.prop computed key value :: l2) pk path agg
        = extractStaticValueFromObjectExpression (l1 ++ l2) pk path agg) ∧
    (∀ (computed : Bool) (key value : Expr) (rest : List ObjProp) (pk : List String)
        (path : List Seg) (agg : List (String × JSValue)) (k : Seg),
      extractPropertyKey computed key = some k →
      isKeyPreserved k pk = true →
      extractStaticValueFromObjectExpression (ObjProp.prop computed key value :: rest)
          pk path agg
        = extractStaticValueFromObjectExpression rest pk path
            (assocSet agg (jsKeyString k) (JSValue.ref (path ++ [k])))) := by
  refine ⟨fun l1 l2 pk path index => extractArr_spread l1 l2 pk path index,
    fun l1 e l2 pk path index h => extractArr_elem_fail e l2 pk path l1 index h,
    ?_, fun l1 computed key value l2 pk path agg hbad =>
      extractObj_skip computed key value pk path hbad l1 l2 agg, ?_⟩
  · intro properties pk path
    simp [extractStaticValueFromExpression, tryResolveStaticValue_object properties]
  · intro computed key value rest pk path agg k hk hpres
    simp [extractStaticValueFromObjectExpression, hk, hpres]

/-- The C4 statement at concrete inputs: a failing element poisons its
array, and a dynamic-valued non-preserved slot is dropped from its object. -/
theorem C4_extractor_container_policies_amended_witness :
    extractStaticValueFromArrayExpression [ArrElem.hole, ArrElem.elem (Expr.ident "x")]
        [] [] 0 = none ∧
    extractStaticValueFromObjectExpression
        [ObjProp.prop false (Expr.ident "a") (Expr.lit (JSValue.num (.fin 1))),
         ObjProp.prop false (Expr.ident "b") (Expr.ident "x")] [] [] []
      = extractStaticValueFromObjectExpression
          [ObjProp.prop false (Expr.ident "a") (Expr.lit (JSValue.num (.fin 1)))]
          [] [] [] := by
  constructor
  · exact C4_extractor_container_policies_amended.2.1 [ArrElem.hole] (Expr.ident "x")
      [] [] [] 0
      (by simp [extractStaticValueFromExpression, tryResolveStaticValue,
        tryResolveLiteral, tryResolveIdentifier])
  · exact C4_extractor_container_policies_amended.2.2.2.1
      [ObjProp.prop false (Expr.ident "a") (Expr.lit (JSValue.num (.fin 1)))]
      false (Expr.ident "b") (Expr.ident "x") [] [] [] []
      (Or.inr ⟨Seg.str "b",
        by simp [extractPropertyKey, tryExtractNamedKey],
        by simp [isKeyPreserved, jsKeyString],
        by simp [extractStaticValueFromExpression, tryResolveStaticValue,
          tryResolveLiteral, tryResolveIdentifier]⟩)

/-- C4 counterexample to the unamended claim: with `preservedKeys = {"c"}`,
the slot `c: someVar` has a value that fails static resolution, yet it is
not omitted — extraction keeps it as an `ExpressionRef` placeholder. -/
theorem C4_counterexample :
    tryResolveStaticValue (Expr.ident "someVar") = none ∧
    extractStaticValueFromExpression
        (Expr.object [ObjProp.prop false (Expr.ident "c") (Expr.ident "someVar")])
        ["c"] []
      = some (JSValue.obj [("c", JSValue.ref [Seg.str "c"])]) := by
  constructor
  · simp [tryResolveStaticValue, tryResolveLiteral, tryResolveIdentifier]
  · simp [extractStaticValueFromExpression, tryResolveStaticValue, tryResolveLiteral,
      tryResolveIdentifier, extractStaticValueFromObjectExpression, extractPropertyKey,
      tryExtractNamedKey, isKeyPreserved, jsKeyString, assocSet]

/-- C10: duplicate-key shadowing in extraction.  When two properties share
the same static key, the earlier one's value resolves and the later one's
does not, the earlier resolved value is assigned to the key and the later
duplicate is omitted (rather than overwriting or removing the entry); in
the Shadowing scenario, `{ width: 100, width: someVar }` extracts to
`{ width: 100 }` — diverging from runtime evaluation, where the later
property wins. -/
theorem C10_duplicate_key_shadowing :
    (∀ (c1 : Bool) (key1 value1 : Expr) (c2 : Bool) (key2 value2 : Expr)
        (rest : List ObjProp) (pk : List String) (path : List Seg)
        (agg : List (String × JSValue)) (k : Seg) (v1 : JSValue),
      extractPropertyKey c1 key1 = some k →
      extractPropertyKey c2 key2 = some k →
      isKeyPreserved k pk = false →
      extractStaticValueFromExpression value1 pk (path ++ [k]) = some v1 →
      extractStaticValueFromExpression value2 pk (path ++ [k]) = none →
      extractStaticValueFromObjectExpression
          (ObjProp.prop c1 key1 value1 :: ObjProp.prop c2 key2 value2 :: rest)
          pk path agg
        = extractStaticValueFromObjectExpression rest pk path
            (assocSet agg (jsKeyString k) v1)) ∧
    extractStaticValueFromExpression
        (Expr.object
          [ObjProp.prop false (Expr.ident "width") (Expr.lit (JSValue.num (.fin 100))),
           ObjProp.prop false (Expr.ident "width") (Expr.ident "someVar")])
        [] []
      = some (JSValue.obj [("width", JSValue.num (.fin 100))]) := by
  constructor
  · intro c1 key1 value1 c2 key2 value2 rest pk path agg k v1 hk1 hk2 hpres hv1 hv2
    simp [extractStaticValueFromObjectExpression, hk1, hk2, hpres, hv1, hv2]
  · simp [extractStaticValueFromExpression, tryResolveStaticValue, tryResolveLiteral,
      tryResolveIdentifier, extractStaticValueFromObjectExpression, extractPropertyKey,
      tryExtractNamedKey, isKeyPreserved, jsKeyString, assocSet]

/-! ## C3: tree patcher array-slot handling -/

theorem contains_erase_ne {l : List String} {a b : String} (h : a ≠ b) :
    (l.erase b).contains a = l.contains a := by
  by_cases hm : a ∈ l
  · have h1 : a ∈ l.erase b := (List.mem_erase_of_ne h).mpr hm
    simp [List.elem_iff, hm, h1]
  · have h1 : a ∉ l.erase b := fun hc => hm ((List.mem_erase_of_ne h).mp hc)
    simp [List.elem_iff, hm, h1]

theorem objLookup_erasePathKey_ne {sets : List (String × JSValue)} {k K : String}
    (h : k ≠ K) : objLookup (erasePathKey sets K) k = objLookup sets k := by
  induction sets with
  | nil => rfl
  | cons e rest ih =>
    obtain ⟨k1, v1⟩ := e
    by_cases h1 : k1 = K
    · subst h1
      have hf : erasePathKey ((k1, v1) :: rest) k1 = erasePathKey rest k1 := by
        simp [erasePathKey]
      rw [hf, ih]
      have hr : objLookup ((k1, v1) :: rest) k = objLookup rest k := by
        simp only [objLookup]
        rw [if_neg (fun hc => h hc.symm)]
      rw [hr]
    · have hf : erasePathKey ((k1, v1) :: rest) K = (k1, v1) :: erasePathKey rest K := by
        simp [erasePathKey, h1]
      rw [hf]
      simp only [objLookup]
      by_cases h2 : k1 = k
      · rw [if_pos h2, if_pos h2]
      · rw [if_neg h2, if_neg h2, ih]

/-- Distinct slot indices under one logical array path have distinct
canonical keys. -/
theorem pathKeyAt_inj {arrayPath : List Seg} (hgood : ∀ s ∈ arrayPath, goodSeg s)
    {i j : Nat} (h : pathKeyAt arrayPath i = pathKeyAt arrayPath j) : i = j := by
  unfold pathKeyAt at h
  have hgi : ∀ s ∈ arrayPath ++ [Seg.num (.fin (i : Int))], goodSeg s := by
    intro s hs
    rcases List.mem_append.mp hs with h1 | h1
    · exact hgood s h1
    · simp at h1
      subst h1
      trivial
  have hgj : ∀ s ∈ arrayPath ++ [Seg.num (.fin (j : Int))], goodSeg s := by
    intro s hs
    rcases List.mem_append.mp hs with h1 | h1
    · exact hgood s h1
    · simp at h1
      subst h1
      trivial
  have hp := stringifyPropertyPath_inj hgi hgj h
  have h2 := List.append_cancel_left hp
  simpa using h2

/-- The C10 statement at the Shadowing scenario's property list. -/
theorem C10_duplicate_key_shadowing_witness :
    extractStaticValueFromObjectExpression
        [ObjProp.prop false (Expr.ident "width") (Expr.lit (JSValue.num (.fin 100))),
         ObjProp.prop false (Expr.ident "width") (Expr.ident "someVar")] [] [] []
      = [("width", JSValue.num (.fin 100))] := by
  have h := C10_duplicate_key_shadowing.1 false (Expr.ident "width")
    (Expr.lit (JSValue.num (.fin 100))) false (Expr.ident "width")
    (Expr.ident "someVar") [] [] [] [] (Seg.str "width") (JSValue.num (.fin 100))
    (by simp [extractPropertyKey, tryExtractNamedKey])
    (by simp [extractPropertyKey, tryExtractNamedKey])
    (by simp [isKeyPreserved, jsKeyString])
    (by simp [extractStaticValueFromExpression, tryResolveStaticValue,
      tryResolveLiteral, tryResolveIdentifier])
    (by simp [extractStaticValueFromExpression, tryResolveStaticValue,
      tryResolveLiteral, tryResolveIdentifier])
  rw [h]
  simp [extractStaticValueFromObjectExpression, assocSet, jsKeyString]

/-- The slot loop rebuilds the element list index-aligned: the output has
the input's length, a slot with a pending delete becomes a hole, a slot
with a pending set becomes the encoded patch value (whether or not it held
an element), and every other slot is unchanged. -/
theorem applyArr_spec (expressionRefResolver : List Seg → Option Expr)
    (arrayPath : List Seg) (hgood : ∀ s ∈ arrayPath, goodSeg s) :
    ∀ (elements : List (Option Expr)) (index : Nat) (dels : List String)
      (sets : List (String × JSValue)) (out : List (Option Expr))
      (d2 : List String) (s2 : List (String × JSValue)),
      applyArrayElementPatches expressionRefResolver arrayPath elements index dels sets
        = .ok (out, d2, s2) →
      out.length = elements.length ∧
      ∀ i, i < elements.length →
        (dels.contains (pathKeyAt arrayPath (index + i)) = true →
          out.get? i = some none) ∧
        (dels.contains (pathKeyAt arrayPath (index + i)) = false →
          ∀ v, objLookup sets (pathKeyAt arrayPath (index + i)) = some v →
            ∃ nv, buildEstreeValue v expressionRefResolver = .ok nv ∧
              out.get? i = some (some nv)) ∧
        (dels.contains (pathKeyAt arrayPath (index + i)) = false →
          objLookup sets (pathKeyAt arrayPath (index + i)) = none →
          out.get? i = elements.get? i) := by
  intro elements
  induction elements with
  | nil =>
    intro index dels sets out d2 s2 h
    simp only [applyArrayElementPatches, Except.ok.injEq, Prod.mk.injEq] at h
    obtain ⟨h1, _, _⟩ := h
    subst h1
    exact ⟨rfl, fun i hi => absurd hi (by simp)⟩
  | cons el rest ih =>
    intro index dels sets out d2 s2 h
    simp only [applyArrayElementPatches] at h
    by_cases hdel : dels.contains (pathKeyAt arrayPath index) = true
    · rw [if_pos hdel] at h
      cases hrec : applyArrayElementPatches expressionRefResolver arrayPath rest (index + 1)
          (dels.erase (pathKeyAt arrayPath index)) sets with
      | error e => rw [hrec] at h; exact absurd h (by simp)
      | ok t =>
        obtain ⟨out1, d21, s21⟩ := t
        rw [hrec] at h
        simp only [Except.ok.injEq, Prod.mk.injEq] at h
        obtain ⟨hout, _, _⟩ := h
        subst hout
        have spec := ih (index + 1) (dels.erase (pathKeyAt arrayPath index)) sets
          out1 d21 s21 hrec
        refine ⟨by simp [spec.1], fun i hi => ?_⟩
        cases i with
        | zero =>
          simp only [Nat.add_zero]
          refine ⟨fun _ => rfl, fun hf => ?_, fun hf _ => ?_⟩ <;>
            (rw [hdel] at hf; exact absurd hf (by simp))
        | succ j =>
          have hj : j < rest.length := by simpa using hi
          have hkey : index + (j + 1) = (index + 1) + j := by omega
          rw [hkey]
          have hne : pathKeyAt arrayPath ((index + 1) + j) ≠ pathKeyAt arrayPath index := by
            intro heq
            have := pathKeyAt_inj hgood heq
            omega
          have hcont := @contains_erase_ne dels _ _ hne
          obtain ⟨c1, c2, c3⟩ := spec.2 j hj
          refine ⟨fun ht => ?_, fun hf v hv => ?_, fun hf hl => ?_⟩
          · have := c1 (by rw [hcont]; exact ht)
            simpa using this
          · have := c2 (by rw [hcont]; exact hf) v hv
            simpa using this
          · have := c3 (by rw [hcont]; exact hf) hl
            simpa using this
    · rw [if_neg hdel] at h
      have hdelf : dels.contains (pathKeyAt arrayPath index) = false := by simpa using hdel
      cases hset : objLookup sets (pathKeyAt arrayPath index) with
      | none =>
        rw [hset] at h
        cases hrec : applyArrayElementPatches expressionRefResolver arrayPath rest (index + 1)
            dels sets with
        | error e => rw [hrec] at h; exact absurd h (by simp)
        | ok t =>
          obtain ⟨out1, d21, s21⟩ := t
          rw [hrec] at h
          simp only [Except.ok.injEq, Prod.mk.injEq] at h
          obtain ⟨hout, _, _⟩ := h
          subst hout
          have spec := ih (index + 1) dels sets out1 d21 s21 hrec
          refine ⟨by simp [spec.1], fun i hi => ?_⟩
          cases i with
          | zero =>
            simp only [Nat.add_zero]
            refine ⟨fun ht => ?_, fun _ v hv => ?_, fun _ _ => rfl⟩
            · rw [hdelf] at ht; exact absurd ht (by simp)
            · rw [hset] at hv; exact absurd hv (by simp)
          | succ j =>
            have hj : j < rest.length := by simpa using hi
            have hkey : index + (j + 1) = (index + 1) + j := by omega
            rw [hkey]
            obtain ⟨c1, c2, c3⟩ := spec.2 j hj
            refine ⟨fun ht => ?_, fun hf v hv => ?_, fun hf hl => ?_⟩
            · simpa using c1 ht
            · simpa using c2 hf v hv
            · simpa using c3 hf hl
      | some patchValue =>
        rw [hset] at h
        simp only [] at h
        cases hbuild : buildEstreeValue patchValue expressionRefResolver with
        | error e => rw [hbuild] at h; exact absurd h (by simp)
        | ok newValue =>
          rw [hbuild] at h
          cases hrec : applyArrayElementPatches expressionRefResolver arrayPath rest
              (index + 1) dels (erasePathKey sets (pathKeyAt arrayPath index)) with
          | error e => rw [hrec] at h; exact absurd h (by simp)
          | ok t =>
            obtain ⟨out1, d21, s21⟩ := t
            rw [hrec] at h
            simp only [Except.ok.injEq, Prod.mk.injEq] at h
            obtain ⟨hout, _, _⟩ := h
            subst hout
            have spec := ih (index + 1) dels
              (erasePathKey sets (pathKeyAt arrayPath index)) out1 d21 s21 hrec
            refine ⟨by simp [spec.1], fun i hi => ?_⟩
            cases i with
            | zero =>
              simp only [Nat.add_zero]
              refine ⟨fun ht => ?_, fun _ v hv => ?_, fun _ hl => ?_⟩
              · rw [hdelf] at ht; exact absurd ht (by simp)
              · rw [hset] at hv
                injection hv with hv
                subst hv
                exact ⟨newValue, hbuild, rfl⟩
              · rw [hset] at hl; exact absurd hl (by simp)
            | succ j =>
              have hj : j < rest.length := by simpa using hi
              have hkey : index + (j + 1) = (index + 1) + j := by omega
              rw [hkey]
              have hne : pathKeyAt arrayPath ((index + 1) + j)
                  ≠ pathKeyAt arrayPath index := by
                intro heq
                have := pathKeyAt_inj hgood heq
                omega
              have hlook := @objLookup_erasePathKey_ne sets _ (pathKeyAt arrayPath index) hne
              obtain ⟨c1, c2, c3⟩ := spec.2 j hj
              refine ⟨fun ht => ?_, fun hf v hv => ?_, fun hf hl => ?_⟩
              · simpa using c1 ht
              · have := c2 hf v (by rw [hlook]; exact hv)
                simpa using this
              · have := c3 hf (by rw [hlook]; exact hl)
                simpa using this

/-- C3: tree patcher ordered-container slot handling
(`applyArrayElementPatchesIfNeeded`).  Over an ordered container whose
logical path has well-formed segments, for every slot index: a `delete`
patch keyed to that slot clears it to a hole while the element list keeps
its length (no shifting or renumbering of subsequent slots), and a `set`
patch keyed to that slot replaces whatever the slot held — an element
expression of any kind, or a hole, which is filled directly — with the
encoded patch value; unpatched slots are unchanged. -/
theorem C3_array_slot_patching (expressionRefResolver : List Seg → Option Expr)
    (arrayPath : List Seg) (hgood : ∀ s ∈ arrayPath, goodSeg s)
    (elements : List (Option Expr)) (deletePathKeys : List String)
    (setPatchByPathKey : List (String × JSValue)) (out : List (Option Expr))
    (d2 : List String) (s2 : List (String × JSValue))
    (h : applyArrayElementPatches expressionRefResolver arrayPath elements 0
      deletePathKeys setPatchByPathKey = .ok (out, d2, s2)) :
    out.length = elements.length ∧
    ∀ i, i < elements.length →
      (deletePathKeys.contains (pathKeyAt arrayPath i) = true →
        out.get? i = some none) ∧
      (deletePathKeys.contains (pathKeyAt arrayPath i) = false →
        ∀ v, objLookup setPatchByPathKey (pathKeyAt arrayPath i) = some v →
          ∃ nv, buildEstreeValue v expressionRefResolver = .ok nv ∧
            out.get? i = some (some nv)) ∧
      (deletePathKeys.contains (pathKeyAt arrayPath i) = false →
        objLookup setPatchByPathKey (pathKeyAt arrayPath i) = none →
        out.get? i = elements.get? i) := by
  have spec := applyArr_spec expressionRefResolver arrayPath hgood elements 0
    deletePathKeys setPatchByPathKey out d2 s2 h
  refine ⟨spec.1, fun i hi => ?_⟩
  have := spec.2 i hi
  simpa using this

/-- The C3 statement on a concrete ordered container at path `items` with a
pending delete for slot 1 and a pending set for slot 2 (a hole): the length
is preserved, slot 1 becomes a hole, the hole at slot 2 is filled with the
encoded value, and slot 0 is untouched. -/
theorem C3_array_slot_patching_witness :
    ([some (Expr.lit (JSValue.num (.fin 1))), none,
        some (Expr.lit (JSValue.str "x"))] : List (Option Expr)).length
      = ([some (Expr.lit (JSValue.num (.fin 1))),
          some (Expr.lit (JSValue.num (.fin 2))), none] : List (Option Expr)).length ∧
    ([some (Expr.lit (JSValue.num (.fin 1))), none,
        some (Expr.lit (JSValue.str "x"))] : List (Option Expr)).get? 1 = some none ∧
    ([some (Expr.lit (JSValue.num (.fin 1))), none,
        some (Expr.lit (JSValue.str "x"))] : List (Option Expr)).get? 2
      = some (some (Expr.lit (JSValue.str "x"))) ∧
    ([some (Expr.lit (JSValue.num (.fin 1))), none,
        some (Expr.lit (JSValue.str "x"))] : List (Option Expr)).get? 0
      = ([some (Expr.lit (JSValue.num (.fin 1))),
          some (Expr.lit (JSValue.num (.fin 2))), none] : List (Option Expr)).get? 0 := by
  have hg : ∀ s ∈ ([Seg.str "items"] : List Seg), goodSeg s := by decide
  have hne01 : pathKeyAt [Seg.str "items"] 0 ≠ pathKeyAt [Seg.str "items"] 1 := by
    intro h
    have := pathKeyAt_inj hg h
    omega
  have hne12 : pathKeyAt [Seg.str "items"] 1 ≠ pathKeyAt [Seg.str "items"] 2 := by
    intro h
    have := pathKeyAt_inj hg h
    omega
  have hne02 : pathKeyAt [Seg.str "items"] 0 ≠ pathKeyAt [Seg.str "items"] 2 := by
    intro h
    have := pathKeyAt_inj hg h
    omega
  have hbuild : buildEstreeValue (JSValue.str "x") (fun _ => none)
      = .ok (Expr.lit (JSValue.str "x")) := by
    simp [buildEstreeValue]
  have hc0 : ([pathKeyAt [Seg.str "items"] 1]).contains (pathKeyAt [Seg.str "items"] 0)
      = false := by
    simp [hne01]
  have hc1 : ([pathKeyAt [Seg.str "items"] 1]).contains (pathKeyAt [Seg.str "items"] 1)
      = true := by simp
  have hc12 : ([pathKeyAt [Seg.str "items"] 1]).contains (pathKeyAt [Seg.str "items"] 2)
      = false := by
    simp [hne12.symm]
  have he : ([pathKeyAt [Seg.str "items"] 1]).erase (pathKeyAt [Seg.str "items"] 1)
      = [] := by simp
  have hc2 : ([] : List String).contains (pathKeyAt [Seg.str "items"] 2) = false := rfl
  have hl0 : objLookup [(pathKeyAt [Seg.str "items"] 2, JSValue.str "x")]
      (pathKeyAt [Seg.str "items"] 0) = none := by
    simp only [objLookup]
    rw [if_neg (fun h => hne02 h.symm)]
  have hl1 : objLookup [(pathKeyAt [Seg.str "items"] 2, JSValue.str "x")]
      (pathKeyAt [Seg.str "items"] 1) = none := by
    simp only [objLookup]
    rw [if_neg (fun h => hne12 h.symm)]
  have hl2 : objLookup [(pathKeyAt [Seg.str "items"] 2, JSValue.str "x")]
      (pathKeyAt [Seg.str "items"] 2) = some (JSValue.str "x") := by
    simp [objLookup]
  have her : erasePathKey [(pathKeyAt [Seg.str "items"] 2, JSValue.str "x")]
      (pathKeyAt [Seg.str "items"] 2) = [] := by
    simp [erasePathKey]
  have happ : applyArrayElementPatches (fun _ => none) [Seg.str "items"]
      [some (Expr.lit (JSValue.num (.fin 1))), some (Expr.lit (JSValue.num (.fin 2))), none]
      0 [pathKeyAt [Seg.str "items"] 1]
      [(pathKeyAt [Seg.str "items"] 2, JSValue.str "x")]
      = .ok ([some (Expr.lit (JSValue.num (.fin 1))), none,
          some (Expr.lit (JSValue.str "x"))], [], []) := by
    simp only [applyArrayElementPatches, hc0, hl0, hc1, he, hc2, hl2, hbuild, her,
      Bool.false_eq_true, Bool.true_eq_false, eq_self_iff_true, if_true, if_false]
  have spec := C3_array_slot_patching (fun _ => none) [Seg.str "items"] hg
    [some (Expr.lit (JSValue.num (.fin 1))), some (Expr.lit (JSValue.num (.fin 2))), none]
    [pathKeyAt [Seg.str "items"] 1] [(pathKeyAt [Seg.str "items"] 2, JSValue.str "x")]
    [some (Expr.lit (JSValue.num (.fin 1))), none, some (Expr.lit (JSValue.str "x"))]
    [] [] happ
  refine ⟨spec.1, ?_, ?_, ?_⟩
  · exact (spec.2 1 (by decide)).1 hc1
  · obtain ⟨nv, hnv, hout⟩ := (spec.2 2 (by decide)).2.1 hc12 (JSValue.str "x") hl2
    rw [hbuild] at hnv
    injection hnv with hnv
    rw [← hnv] at hout
    exact hout
  · exact (spec.2 0 (by decide)).2.2 hc0 hl0

end RecmaStaticRefiner
